import Mathlib

/-!
# ncrack: NSEC zone walking

A shallow embedding of `ncrack.go` and proofs about it.

Go strings are modelled by Lean `String` (valid UTF-8 text); every string
operation used by the program is defined below on the character list,
following the Go standard library (`strings.TrimSpace`, `strings.Fields`,
`strings.Split`, `strings.HasPrefix`, `strings.TrimPrefix`,
`strings.TrimSuffix`, `strings.Index`).  The patterns the program passes to
these functions are ASCII, so on valid UTF-8 text the byte-level and the
character-level readings coincide.

External effects are explicit parameters: the output of each `dig` command
(`none` when `exec.Command(...).Output()` returns an error), the values drawn
by `rand.Intn`, and the outcome of each file operation.  The lines printed to
standard output are not modelled; each way of leaving `nsecCrawl` is a
constructor of `Outcome` or `Crawl`.

The counters `count` and `errorCount` are Go `int`s (64 bit).  `errorCount`
never exceeds 3, and `count` grows by one per answered DNS query, each of
which is a run of the `dig` command, so that the bound `2^63` is out of
reach; both are modelled by `Nat`.

The loop of `nsecCrawl` has no bound on its iterations: `runLoop` runs it with
fuel, and a run that uses up its fuel reports no outcome.
-/

namespace Ncrack

/-! ## Go string library -/

/-- Go `unicode.IsSpace`: the white space characters of Unicode. -/
def isSpace (c : Char) : Bool :=
  c = '\t' || c = '\n' || c = '\x0b' || c = '\x0c' || c = '\r' || c = ' ' ||
  c = '\u0085' || c = '\u00a0' || c = '\u1680' ||
  (0x2000 ≤ c.toNat && c.toNat ≤ 0x200a) ||
  c = '\u2028' || c = '\u2029' || c = '\u202f' || c = '\u205f' || c = '\u3000'

/-- Go `strings.TrimSpace`: leading and trailing white space removed. -/
def trimSpace (s : String) : String :=
  ⟨((s.data.dropWhile isSpace).reverse.dropWhile isSpace).reverse⟩

/-- Go `strings.HasPrefix`:
`len(s) >= len(prefix) && s[:len(prefix)] == prefix`. -/
def hasPrefix (s pre : String) : Bool :=
  decide (pre.data.length ≤ s.data.length) && (s.data.take pre.data.length == pre.data)

/-- Go `strings.HasSuffix`:
`len(s) >= len(suffix) && s[len(s)-len(suffix):] == suffix`. -/
def hasSuffix (s suf : String) : Bool :=
  decide (suf.data.length ≤ s.data.length) &&
    (s.data.drop (s.data.length - suf.data.length) == suf.data)

/-- Go `strings.TrimPrefix`: `s` without the leading `pre`, or `s` itself. -/
def trimPrefix (s pre : String) : String :=
  if hasPrefix s pre then ⟨s.data.drop pre.data.length⟩ else s

/-- Go `strings.TrimSuffix`: `s` without the trailing `suf`, or `s` itself. -/
def trimSuffix (s suf : String) : String :=
  if hasSuffix s suf then ⟨s.data.take (s.data.length - suf.data.length)⟩ else s

/-- Go `strings.Index(s, string(c))` for a one-character separator: the
position of the first `c`, `none` standing for `-1`. -/
def indexChar (s : String) (c : Char) : Option Nat :=
  s.data.findIdx? (fun d => d == c)

/-- Splitting a character list at every occurrence of `sep`. -/
def splitChars (sep : Char) : List Char → List (List Char)
  | [] => [[]]
  | c :: cs =>
    if c = sep then [] :: splitChars sep cs
    else
      match splitChars sep cs with
      | l :: ls => (c :: l) :: ls
      | [] => [[c]]

/-- Go `strings.Split(s, "\n")`: the pieces of `s` between line feeds; a
string without a line feed (the empty one too) gives one piece. -/
def splitLines (s : String) : List String :=
  (splitChars '\n' s.data).map String.mk

/-- The maximal runs of non-space characters of a character list. -/
def fieldsChars : List Char → List (List Char)
  | [] => []
  | c :: cs =>
    if isSpace c then fieldsChars cs
    else
      match cs with
      | [] => [[c]]
      | d :: _ =>
        if isSpace d then [c] :: fieldsChars cs
        else
          match fieldsChars cs with
          | tok :: rest => (c :: tok) :: rest
          | [] => [[c]]

/-- Go `strings.Fields`: `s` split around each run of white space; no
field is empty, and a string of white space only has no field. -/
def fields (s : String) : List String :=
  (fieldsChars s.data).map String.mk

/-! ## `cleanDomain` -/

/-- Go `cleanDomain`: white space trimmed, then the prefixes `http://`,
`https://` and `www.` dropped in that order, then everything from the first
`/` on cut off. -/
def cleanDomain (domain : String) : String :=
  let domain := trimSpace domain
  let domain := trimPrefix domain "http://"
  let domain := trimPrefix domain "https://"
  let domain := trimPrefix domain "www."
  match indexChar domain '/' with
  | some idx => ⟨domain.data.take idx⟩
  | none => domain

/-! ## Nameserver discovery -/

/-- A Go `[2]string{ns, ip}`: nameserver name and IP address. -/
abbrev Endpoint := String × String

/-- Go `getNameservers`, the `dig` run being the parameter `digNS`
(`none` when the command returns an error): the fields of the output, each
without its trailing dot. -/
def getNameservers (digNS : String → Option String) (domain : String) : List String :=
  match digNS domain with
  | none => []
  | some out => (fields out).map (fun ns => trimSuffix ns ".")

/-- The loop of `getNameserverIPs` over the nameservers still to process,
`acc` being `nsIPList` so far. -/
def getNameserverIPsLoop (digA : String → Option String) :
    List String → List Endpoint → List Endpoint
  | [], acc => acc
  | ns :: rest, acc =>
    match digA ns with
    | none => getNameserverIPsLoop digA rest acc
    | some out =>
      let nsIPs := fields out
      if nsIPs.length = 0 then getNameserverIPsLoop digA rest acc
      else getNameserverIPsLoop digA rest (nsIPs.foldl (fun l ip => l ++ [(ns, ip)]) acc)

/-- Go `getNameserverIPs`, the address lookup `dig ns A ns AAAA` being the
parameter `digA` (`none` when the command returns an error).  The Go function
does not use its argument `domain`. -/
def getNameserverIPs (digA : String → Option String) (nameservers : List String)
    (_domain : String) : List Endpoint :=
  getNameserverIPsLoop digA nameservers []

/-! ## `getNSECRecord` -/

/-- The `for _, line := range lines` loop of `getNSECRecord`. -/
def nsecScan : List String → String
  | [] => ""
  | line :: rest =>
    if hasPrefix line ";;" then nsecScan rest
    else
      match fields line with
      | f0 :: _ => trimSuffix f0 "."
      | [] => nsecScan rest

/-- Go `getNSECRecord`, the run of `dig @nsIP currentDomain NSEC` being the
parameter `digNSEC` (`none` when the command returns an error). -/
def getNSECRecord (digNSEC : String → String → Option String)
    (nsIP currentDomain : String) : String :=
  match digNSEC nsIP currentDomain with
  | none => ""
  | some out => nsecScan (splitLines (trimSpace out))

/-! ## `removeIP` -/

/-- Go `removeIP`: at the first index `i` whose entry has IP `ip`, the result
is `append(nsIPList[:i], nsIPList[i+1:]...)`; without such an index the list
is returned as it is. -/
def removeIP (nsIPList : List Endpoint) (ip : String) : List Endpoint :=
  match nsIPList.findIdx? (fun nsIP => nsIP.2 == ip) with
  | some i => nsIPList.take i ++ nsIPList.drop (i + 1)
  | none => nsIPList

/-! ## `writeToFile` -/

/-- What happens to one call of `writeToFile`: `os.OpenFile` returns an
error, `f.WriteString` returns an error, or both succeed. -/
inductive FileOp
  | openError
  | writeError
  | ok
deriving DecidableEq, Repr

/-- Go `writeToFile`.  The file system is the log of the appends done, each
with the file name and the text appended.  When the file cannot be opened
nothing is written and the function returns after reporting the error; a
`WriteString` that returns an error is taken to have appended nothing. -/
def writeToFile (io : FileOp) (files : List (String × String)) (filename content : String) :
    List (String × String) :=
  match io with
  | .openError => files
  | .writeError => files
  | .ok => files ++ [(filename, content ++ "\n")]

/-- The file name `fmt.Sprintf("nwalk_out/nsec-%s.txt", domain)`. -/
def outFile (domain : String) : String :=
  "nwalk_out/nsec-" ++ domain ++ ".txt"

/-! ## The walk loop of `nsecCrawl` -/

/-- Go `rand.Intn(n)`: a panic for `n = 0`, otherwise a value below `n`;
`r` is the raw value the generator supplies. -/
def randIntn (r n : Nat) : Option Nat :=
  if n = 0 then none else some (r % n)

/-- The local variables of `nsecCrawl` during the walk, and the appends made
to the file system. -/
structure WalkState where
  domain : String
  nameservers : List String
  nsIPList : List Endpoint
  currentDomain : String
  count : Nat
  errorCount : Nat
  ns : Endpoint
  files : List (String × String)
deriving DecidableEq, Repr

/-- How the walk loop is left: by `break` (the summary after the loop
follows), by the `return` at the head of the loop ("No nameservers left"), by
the `return` after a removal ("No IPs left"), or by a run-time panic
(`rand.Intn(0)`, index out of range). -/
inductive Outcome
  | success
  | noNameserversLeft
  | noIPsLeft
  | panic
deriving DecidableEq, Repr

/-- Result of one iteration of the loop: go on with a new state, or leave. -/
inductive Step
  | next (s : WalkState)
  | halt (o : Outcome) (s : WalkState)
deriving DecidableEq, Repr

/-- The check at the head of the loop:
`len(nameservers) == 0 || len(nsIPList) == 0`. -/
def headCheck (s : WalkState) : Bool :=
  decide (s.nameservers.length = 0) || decide (s.nsIPList.length = 0)

/-- The query an iteration starting in `s` issues, `(nsIP, currentDomain)`;
none when the head check leaves the loop. -/
def nextQuery (s : WalkState) : Option (String × String) :=
  if headCheck s then none else some (s.ns.2, s.currentDomain)

/-- One iteration of the `for` loop of `nsecCrawl`.  `digNSEC` is the `dig`
run of this iteration, `r` the raw random value behind `rand.Intn`, `io` the
outcome of the file operation of `writeToFile`. -/
def loopBody (digNSEC : String → String → Option String) (r : Nat) (io : FileOp)
    (s : WalkState) : Step :=
  if headCheck s then .halt .noNameserversLeft s
  else
    let nsIP := s.ns.2
    let nsec := getNSECRecord digNSEC nsIP s.currentDomain
    if nsec = "" then
      let s1 := { s with errorCount := s.errorCount + 1 }
      if s1.errorCount = 3 then
        let s2 := { s1 with nsIPList := removeIP s1.nsIPList nsIP }
        if s2.nsIPList.length = 0 then .halt .noIPsLeft s2
        else
          match randIntn r s2.nsIPList.length with
          | none => .halt .panic s2
          | some i =>
            match s2.nsIPList[i]? with
            | none => .halt .panic s2
            | some e => .next { s2 with ns := e, errorCount := 0 }
      else .next s1
    else
      let s1 := { s with errorCount := 0 }
      if nsec = s1.domain ∨ nsec = s1.currentDomain then .halt .success s1
      else if hasPrefix nsec "\x00." then .halt .success s1
      else
        .next { s1 with
          count := s1.count + 1
          files := writeToFile io s1.files (outFile s1.domain) nsec
          currentDomain := nsec }

/-- The environment of one walk: the `dig` run of the iteration `t`, the raw
random values (`rand 0` for the draw before the loop, `rand (t + 1)` for the
draw of iteration `t`), and the outcome of the file operation of iteration
`t`. -/
structure World where
  digNSEC : Nat → String → String → Option String
  rand : Nat → Nat
  fileOp : Nat → FileOp

/-- What a run of the loop gives: the outcome (none while the loop is still
running when the fuel is used up), the last state, and the state at the head
of each iteration run, in order. -/
structure Run where
  outcome : Option Outcome
  final : WalkState
  heads : List WalkState
deriving DecidableEq, Repr

/-- The `for` loop of `nsecCrawl` run for at most `fuel` iterations from the
state `s`, `t` being the number of the first iteration. -/
def runLoop (w : World) : Nat → Nat → WalkState → Run
  | 0, _, s => ⟨none, s, []⟩
  | fuel + 1, t, s =>
    match loopBody (w.digNSEC t) (w.rand (t + 1)) (w.fileOp t) s with
    | .halt o s1 => ⟨some o, s1, [s]⟩
    | .next s1 =>
      let r := runLoop w fuel (t + 1) s1
      ⟨r.outcome, r.final, s :: r.heads⟩

/-- The number of NSEC queries of a run: an iteration issues one exactly
when its head check lets it pass. -/
def Run.queries (r : Run) : Nat :=
  (r.heads.filter (fun s => !headCheck s)).length

/-- The changes of `currentDomain` along a list of its successive values:
each value that differs from the one before it. -/
def nameTransitions : List String → List String
  | a :: b :: rest =>
    if a = b then nameTransitions (b :: rest) else b :: nameTransitions (b :: rest)
  | _ => []

/-- The successive values of `currentDomain` seen in a run. -/
def Run.names (r : Run) : List String :=
  (r.heads ++ [r.final]).map (fun s => s.currentDomain)

/-- Lines 79 to 82 of `nsecCrawl`: the state in which the loop is entered. -/
def walkInit (r0 : Nat) (domain : String) (nameservers : List String)
    (nsIPList : List Endpoint) : Option WalkState :=
  match randIntn r0 nsIPList.length with
  | none => none
  | some i =>
    match nsIPList[i]? with
    | none => none
    | some e =>
      some
        { domain := domain
          nameservers := nameservers
          nsIPList := nsIPList
          currentDomain := domain
          count := 0
          errorCount := 0
          ns := e
          files := [] }

/-- How `nsecCrawl` ends: without nameservers, without IPs, by a panic at
the first draw, or with the run of its loop. -/
inductive Crawl
  | noNameservers
  | noIPs
  | panic
  | walked (r : Run)
deriving DecidableEq, Repr

/-- Go `nsecCrawl`, its loop run for at most `fuel` iterations. -/
def nsecCrawl (digNS digA : String → Option String) (w : World) (fuel : Nat)
    (domain : String) : Crawl :=
  let domain := cleanDomain domain
  let nameservers := getNameservers digNS domain
  if nameservers.length = 0 then .noNameservers
  else
    let nsIPList := getNameserverIPs digA nameservers domain
    if nsIPList.length = 0 then .noIPs
    else
      match walkInit (w.rand 0) domain nameservers nsIPList with
      | none => .panic
      | some s => .walked (runLoop w fuel 0 s)

/-- What holds at the head of every iteration of the loop: there are
nameservers, the pool is not empty, the active endpoint is in the pool, and
fewer than three failures are pending. -/
def WalkInv (s : WalkState) : Prop :=
  s.nameservers ≠ [] ∧ s.nsIPList ≠ [] ∧ s.ns ∈ s.nsIPList ∧ s.errorCount ≤ 2

/-! ### A sample zone -/

/-- A resolver for the zone `example.test` with the one further name
`b.example.test`. -/
def zoneDig (_ip name : String) : Option String :=
  if name = "example.test" then some "b.example.test. A RRSIG NSEC\n"
  else if name = "b.example.test" then some "example.test. A NS SOA RRSIG NSEC DNSKEY\n"
  else none

/-- A world in which every endpoint serves `zoneDig` and every file
operation succeeds. -/
def zoneWorld : World :=
  { digNSEC := fun _ => zoneDig, rand := fun _ => 0, fileOp := fun _ => .ok }

/-- The pool of the sample walk. -/
def zonePool : List Endpoint := [("ns1.example.test", "10.0.0.1")]

/-! ## Sample data and specification functions -/

/-- The state in which the sample walk enters its loop. -/
def zoneStart : WalkState :=
  { domain := "example.test"
    nameservers := ["ns1.example.test"]
    nsIPList := zonePool
    currentDomain := "example.test"
    count := 0
    errorCount := 0
    ns := ("ns1.example.test", "10.0.0.1")
    files := [] }

/-- A pool in which two nameserver names share one IP address. -/
def sharedPool : List Endpoint :=
  [("ns1.example.test", "10.0.0.1"), ("ns2.example.test", "10.0.0.1")]

/-- A state with two pending failures on the second endpoint of a pool of
three. -/
def strikeState : WalkState :=
  { domain := "example.test"
    nameservers := ["ns1.example.test", "ns2.example.test", "ns3.example.test"]
    nsIPList := [("ns1.example.test", "10.0.0.1"), ("ns2.example.test", "10.0.0.2"),
      ("ns3.example.test", "10.0.0.3")]
    currentDomain := "b.example.test"
    count := 1
    errorCount := 2
    ns := ("ns2.example.test", "10.0.0.2")
    files := [("nwalk_out/nsec-example.test.txt", "b.example.test\n")] }

/-- A resolver whose every query fails. -/
def deadDig (_ip _name : String) : Option String := none

/-- A world in which every NSEC query fails. -/
def deadWorld : World :=
  { digNSEC := fun _ => deadDig, rand := fun n => n, fileOp := fun _ => .ok }

/-- The NS answer for the sample zone. -/
def zoneNS (name : String) : Option String :=
  if name = "example.test" then some "ns1.example.test.\n" else none

/-- The address answer for the nameserver of the sample zone. -/
def zoneA (name : String) : Option String :=
  if name = "ns1.example.test" then some "10.0.0.1\n" else none

/-- The sample zone on a file system on which no file can be opened (the
directory `nwalk_out` is missing). -/
def noDirWorld : World :=
  { digNSEC := fun _ => zoneDig, rand := fun _ => 0, fileOp := fun _ => .openError }

/-- A resolver whose answers go from `example.test` to `b.example.test` and
then back and forth between `b.example.test` and `c.example.test`. -/
def cycleDig (_ip name : String) : Option String :=
  if name = "example.test" then some "b.example.test. A RRSIG NSEC\n"
  else if name = "b.example.test" then some "c.example.test. A RRSIG NSEC\n"
  else if name = "c.example.test" then some "b.example.test. A RRSIG NSEC\n"
  else none

/-- A world in which every endpoint answers by `cycleDig` at every time. -/
def cycleWorld : World :=
  { digNSEC := fun _ => cycleDig, rand := fun _ => 0, fileOp := fun _ => .ok }

/-- The place of a name of the sample zone in the order of the walk. -/
def zoneRank (name : String) : Nat :=
  if name = "example.test" then 1 else 0

/-- The endpoint list as the specification words it: for each nameserver in
order, the pairs `(name, ip)` for each address token of its answer in order;
a failed lookup gives no pair. -/
def endpointsOf (lookup : String → Option (List String)) : List String → List Endpoint
  | [] => []
  | ns :: rest =>
    (match lookup ns with
      | none => []
      | some ips => ips.map (fun ip => (ns, ip))) ++ endpointsOf lookup rest

/-- The result of `getNSECRecord` as the specification words it: of the
lines of the trimmed output, the first one that does not start with `;;` and
has a token gives its first token without the trailing dot; the empty string
when there is no such line. -/
def nsecRecordSpec (out : String) : String :=
  match (splitLines (trimSpace out)).find?
      (fun line => !hasPrefix line ";;" && !(fields line).isEmpty) with
  | none => ""
  | some line => trimSuffix ((fields line).headD "") "."

/-- A resolver for the sample zone that, as DNS does, reads a name with and
without the final dot alike. -/
def fqdnDig (ip name : String) : Option String :=
  zoneDig ip (trimSuffix name ".")

/-- The NS answer for the sample zone, the final dot of the name being
optional. -/
def fqdnNS (name : String) : Option String :=
  zoneNS (trimSuffix name ".")

/-- The sample zone served by `fqdnDig`. -/
def fqdnWorld : World :=
  { digNSEC := fun _ => fqdnDig, rand := fun _ => 0, fileOp := fun _ => .ok }

/-- The state in which the walk of `example.test.` enters its loop. -/
def dotStart : WalkState :=
  { zoneStart with domain := "example.test.", currentDomain := "example.test." }

/-! ## Lemmas on `removeIP` -/

theorem removeIP_nil (ip : String) : removeIP [] ip = [] := rfl

theorem removeIP_cons (e : Endpoint) (l : List Endpoint) (ip : String) :
    removeIP (e :: l) ip = if e.2 = ip then l else e :: removeIP l ip := by
  unfold removeIP
  rw [List.findIdx?_cons]
  by_cases h : e.2 = ip
  · simp [h]
  · have hb : (e.2 == ip) = false := by simpa using h
    simp only [hb, h, if_false]
    cases hf : List.findIdx? (fun nsIP => nsIP.2 == ip) l with
    | none => simp [hf]
    | some i => simp [hf]

/-- The pool splits around the first entry with the IP `ip`, and `removeIP`
gives the two sides put together. -/
theorem removeIP_split (l : List Endpoint) (ip : String) (h : ∃ x ∈ l, x.2 = ip) :
    ∃ l1 e l2, l = l1 ++ e :: l2 ∧ e.2 = ip ∧ (∀ x ∈ l1, x.2 ≠ ip) ∧
      removeIP l ip = l1 ++ l2 := by
  induction l with
  | nil => obtain ⟨x, hx, _⟩ := h; cases hx
  | cons a l ih =>
    by_cases ha : a.2 = ip
    · exact ⟨[], a, l, rfl, ha, by simp, by simp [removeIP_cons, ha]⟩
    · have h1 : ∃ x ∈ l, x.2 = ip := by
        obtain ⟨x, hx, hxi⟩ := h
        rcases List.mem_cons.mp hx with rfl | hx
        · exact absurd hxi ha
        · exact ⟨x, hx, hxi⟩
      obtain ⟨l1, e, l2, hl, he, hl1, hr⟩ := ih h1
      refine ⟨a :: l1, e, l2, by simp [hl], he, ?_, by simp [removeIP_cons, ha, hr]⟩
      intro x hx
      rcases List.mem_cons.mp hx with rfl | hx
      · exact ha
      · exact hl1 x hx

theorem removeIP_length (l : List Endpoint) (ip : String) (h : ∃ x ∈ l, x.2 = ip) :
    (removeIP l ip).length + 1 = l.length := by
  obtain ⟨l1, e, l2, hl, _, _, hr⟩ := removeIP_split l ip h
  rw [hr, hl]
  simp
  omega

theorem removeIP_subset (l : List Endpoint) (ip : String) :
    ∀ x ∈ removeIP l ip, x ∈ l := by
  induction l with
  | nil => intro x hx; simp [removeIP_nil] at hx
  | cons a l ih =>
    intro x hx
    rw [removeIP_cons] at hx
    split at hx
    · exact List.mem_cons_of_mem _ hx
    · rcases List.mem_cons.mp hx with rfl | hx
      · exact List.mem_cons_self _ _
      · exact List.mem_cons_of_mem _ (ih x hx)

/-! ## Lemmas on one iteration -/

theorem headCheck_eq_false (s : WalkState) (hns : s.nameservers ≠ []) (hp : s.nsIPList ≠ []) :
    headCheck s = false := by
  unfold headCheck
  cases hn : s.nameservers with
  | nil => exact absurd hn hns
  | cons a l =>
    cases hq : s.nsIPList with
    | nil => exact absurd hq hp
    | cons b m => simp

theorem headCheck_of_inv (s : WalkState) (h : WalkInv s) : headCheck s = false :=
  headCheck_eq_false s h.1 h.2.1

/-- The prefix test of the loop reads: the first two characters are NUL and
the dot. -/
theorem hasPrefix_nul (n : String) :
    hasPrefix n "\x00." = true ↔ ∃ rest, n.data = Char.ofNat 0 :: '.' :: rest := by
  have hd : ("\x00." : String).data = [Char.ofNat 0, '.'] := by decide
  unfold hasPrefix
  rw [hd]
  cases hn : n.data with
  | nil => simp
  | cons a l =>
    cases l with
    | nil => simp
    | cons b m => simp

theorem loopBody_head (dig : String → String → Option String) (r : Nat) (io : FileOp)
    (s : WalkState) (h : headCheck s = true) :
    loopBody dig r io s = .halt .noNameserversLeft s := by
  simp [loopBody, h]

theorem loopBody_fail_count (dig : String → String → Option String) (r : Nat) (io : FileOp)
    (s : WalkState) (hh : headCheck s = false)
    (hfail : getNSECRecord dig s.ns.2 s.currentDomain = "") (he : s.errorCount + 1 ≠ 3) :
    loopBody dig r io s = .next { s with errorCount := s.errorCount + 1 } := by
  simp [loopBody, hh, hfail, he]

theorem loopBody_fail_last (dig : String → String → Option String) (r : Nat) (io : FileOp)
    (s : WalkState) (hh : headCheck s = false)
    (hfail : getNSECRecord dig s.ns.2 s.currentDomain = "") (he : s.errorCount + 1 = 3)
    (hl : removeIP s.nsIPList s.ns.2 = []) :
    loopBody dig r io s =
      .halt .noIPsLeft { s with errorCount := s.errorCount + 1, nsIPList := [] } := by
  simp [loopBody, hh, hfail, he, hl]

theorem loopBody_fail_remove (dig : String → String → Option String) (r : Nat) (io : FileOp)
    (s : WalkState) (hh : headCheck s = false)
    (hfail : getNSECRecord dig s.ns.2 s.currentDomain = "") (he : s.errorCount + 1 = 3)
    (hl : removeIP s.nsIPList s.ns.2 ≠ []) :
    ∃ e, (removeIP s.nsIPList s.ns.2)[r % (removeIP s.nsIPList s.ns.2).length]? = some e ∧
      e ∈ removeIP s.nsIPList s.ns.2 ∧
      loopBody dig r io s =
        .next { s with nsIPList := removeIP s.nsIPList s.ns.2, ns := e, errorCount := 0 } := by
  have hpos : 0 < (removeIP s.nsIPList s.ns.2).length := List.length_pos.mpr hl
  have hlt : r % (removeIP s.nsIPList s.ns.2).length < (removeIP s.nsIPList s.ns.2).length :=
    Nat.mod_lt _ hpos
  have hne : (removeIP s.nsIPList s.ns.2).length ≠ 0 := by omega
  refine ⟨(removeIP s.nsIPList s.ns.2)[r % (removeIP s.nsIPList s.ns.2).length], ?_, ?_, ?_⟩
  · exact List.getElem?_eq_getElem hlt
  · exact List.getElem_mem _
  · simp [loopBody, hh, hfail, he, hl, randIntn, hne, List.getElem?_eq_getElem hlt]

theorem loopBody_answer_stop (dig : String → String → Option String) (r : Nat) (io : FileOp)
    (s : WalkState) (hh : headCheck s = false)
    (hne : getNSECRecord dig s.ns.2 s.currentDomain ≠ "")
    (hstop : getNSECRecord dig s.ns.2 s.currentDomain = s.domain ∨
      getNSECRecord dig s.ns.2 s.currentDomain = s.currentDomain ∨
      hasPrefix (getNSECRecord dig s.ns.2 s.currentDomain) "\x00." = true) :
    loopBody dig r io s = .halt .success { s with errorCount := 0 } := by
  unfold loopBody
  simp only [hh, hne, if_false, Bool.false_eq_true]
  by_cases h1 : getNSECRecord dig s.ns.2 s.currentDomain = s.domain ∨
      getNSECRecord dig s.ns.2 s.currentDomain = s.currentDomain
  · simp [h1]
  · have h2 : hasPrefix (getNSECRecord dig s.ns.2 s.currentDomain) "\x00." = true := by
      rcases hstop with h | h | h
      · exact absurd (Or.inl h) h1
      · exact absurd (Or.inr h) h1
      · exact h
    simp [h1, h2]

theorem loopBody_answer_go (dig : String → String → Option String) (r : Nat) (io : FileOp)
    (s : WalkState) (hh : headCheck s = false)
    (hne : getNSECRecord dig s.ns.2 s.currentDomain ≠ "")
    (h1 : getNSECRecord dig s.ns.2 s.currentDomain ≠ s.domain)
    (h2 : getNSECRecord dig s.ns.2 s.currentDomain ≠ s.currentDomain)
    (h3 : hasPrefix (getNSECRecord dig s.ns.2 s.currentDomain) "\x00." = false) :
    loopBody dig r io s =
      .next { s with
        errorCount := 0
        count := s.count + 1
        files := writeToFile io s.files (outFile s.domain)
          (getNSECRecord dig s.ns.2 s.currentDomain)
        currentDomain := getNSECRecord dig s.ns.2 s.currentDomain } := by
  simp [loopBody, hh, hne, h1, h2, h3]

/-! ## Main results on one iteration and on `removeIP` -/

/-- C1, as stated, fails: in the sample walk the answer `b.example.test` is
neither the start domain, nor the current name, nor NUL-prefixed; when the
output file cannot be opened the count grows to 1 and the current name
becomes `b.example.test`, and nothing is recorded. -/
theorem recording_counterexample :
    getNSECRecord zoneDig zoneStart.ns.2 zoneStart.currentDomain = "b.example.test" ∧
    "b.example.test" ≠ zoneStart.domain ∧ "b.example.test" ≠ zoneStart.currentDomain ∧
    hasPrefix "b.example.test" "\x00." = false ∧
    loopBody zoneDig 0 .openError zoneStart =
      .next { zoneStart with count := 1, files := [], currentDomain := "b.example.test" } := by
  decide

/-- C1, amended: in an iteration of the walk loop that receives the
non-empty NSEC answer `n`: if `n` is the start domain, or the current name,
or begins with the NUL label, the loop is left with the success outcome,
nothing is written and the count is as before; in every other case the
current name becomes `n`, the count grows by one, the failure count is 0, the
active endpoint and the pool stay as they are, and `n` is recorded (its line
appended to the output file of the domain) when the file operation of
`writeToFile` succeeds, nothing being written when it fails. -/
theorem loopBody_on_answer (dig : String → String → Option String) (r : Nat) (io : FileOp)
    (s : WalkState) (n : String) (hns : s.nameservers ≠ []) (hpool : s.nsIPList ≠ [])
    (hn : getNSECRecord dig s.ns.2 s.currentDomain = n) (hne : n ≠ "") :
    ((n = s.domain ∨ n = s.currentDomain ∨ ∃ rest, n.data = Char.ofNat 0 :: '.' :: rest) →
      loopBody dig r io s = .halt .success { s with errorCount := 0 }) ∧
    (¬ (n = s.domain ∨ n = s.currentDomain ∨ ∃ rest, n.data = Char.ofNat 0 :: '.' :: rest) →
      loopBody dig r io s =
        .next { s with
          errorCount := 0
          count := s.count + 1
          files := if io = .ok then s.files ++ [(outFile s.domain, n ++ "\n")] else s.files
          currentDomain := n }) := by
  have hh := headCheck_eq_false s hns hpool
  subst hn
  refine ⟨?_, ?_⟩
  · intro hstop
    apply loopBody_answer_stop dig r io s hh hne
    rcases hstop with h | h | h
    · exact Or.inl h
    · exact Or.inr (Or.inl h)
    · exact Or.inr (Or.inr ((hasPrefix_nul _).mpr h))
  · intro hgo
    have h1 : getNSECRecord dig s.ns.2 s.currentDomain ≠ s.domain := fun h => hgo (Or.inl h)
    have h2 : getNSECRecord dig s.ns.2 s.currentDomain ≠ s.currentDomain :=
      fun h => hgo (Or.inr (Or.inl h))
    have h3 : hasPrefix (getNSECRecord dig s.ns.2 s.currentDomain) "\x00." = false := by
      cases hp : hasPrefix (getNSECRecord dig s.ns.2 s.currentDomain) "\x00." with
      | false => rfl
      | true => exact absurd (Or.inr (Or.inr ((hasPrefix_nul _).mp hp))) hgo
    rw [loopBody_answer_go dig r io s hh hne h1 h2 h3]
    cases io <;> rfl

/-- The sample walk on a working file system: from `example.test` the answer
`b.example.test` is recorded and becomes the current name, and the answer
`example.test` that follows ends the walk with one line written and the
count 1. -/
theorem loopBody_on_answer_witness :
    loopBody zoneDig 0 .ok zoneStart =
      .next { zoneStart with
        count := 1
        files := [("nwalk_out/nsec-example.test.txt", "b.example.test\n")]
        currentDomain := "b.example.test" } ∧
    (runLoop zoneWorld 5 0 zoneStart).outcome = some .success ∧
    (runLoop zoneWorld 5 0 zoneStart).final.files =
      [("nwalk_out/nsec-example.test.txt", "b.example.test\n")] ∧
    (runLoop zoneWorld 5 0 zoneStart).final.count = 1 :=
  ⟨(loopBody_on_answer zoneDig 0 .ok zoneStart "b.example.test" (by decide) (by decide)
      (by decide) (by decide)).2
      (by
        rintro (h | h | ⟨rest, h⟩)
        · exact absurd h (by decide)
        · exact absurd h (by decide)
        · have h0 : ("b.example.test" : String).data.head? = some (Char.ofNat 0) := by
            rw [h]; rfl
          exact absurd h0 (by decide)),
    by decide, by decide, by decide⟩

/-- C2: in a walk state (nameservers present, active endpoint in the pool)
whose pool has at least two endpoints, a failed NSEC query that brings the
failure count to 1 or 2 changes that count only; the one that brings it to 3
takes one entry out of the pool, draws the new active endpoint from what is
left, sets the failure count to 0 and keeps the current name, the count and
the written names, and the next query is for the same current name at the
new endpoint. -/
theorem loopBody_failed_query (dig : String → String → Option String) (r : Nat) (io : FileOp)
    (s : WalkState) (hns : s.nameservers ≠ []) (hmem : s.ns ∈ s.nsIPList)
    (h2 : 2 ≤ s.nsIPList.length)
    (hfail : getNSECRecord dig s.ns.2 s.currentDomain = "") :
    ((s.errorCount + 1 = 1 ∨ s.errorCount + 1 = 2) →
      loopBody dig r io s = .next { s with errorCount := s.errorCount + 1 }) ∧
    (s.errorCount + 1 = 3 →
      ∃ l1 x l2 e, s.nsIPList = l1 ++ x :: l2 ∧ removeIP s.nsIPList s.ns.2 = l1 ++ l2 ∧
        e ∈ l1 ++ l2 ∧
        loopBody dig r io s =
          .next { s with nsIPList := l1 ++ l2, ns := e, errorCount := 0 } ∧
        nextQuery { s with nsIPList := l1 ++ l2, ns := e, errorCount := 0 } =
          some (e.2, s.currentDomain)) := by
  have hp : s.nsIPList ≠ [] := by
    intro h
    rw [h] at h2
    simp at h2
  have hh := headCheck_eq_false s hns hp
  refine ⟨?_, ?_⟩
  · intro he
    exact loopBody_fail_count dig r io s hh hfail (by omega)
  · intro he
    have hex : ∃ x ∈ s.nsIPList, x.2 = s.ns.2 := ⟨s.ns, hmem, rfl⟩
    obtain ⟨l1, x, l2, hl, _, _, hr⟩ := removeIP_split s.nsIPList s.ns.2 hex
    have hlen := removeIP_length s.nsIPList s.ns.2 hex
    have hne : removeIP s.nsIPList s.ns.2 ≠ [] := by
      intro h
      rw [h] at hlen
      simp at hlen
      omega
    obtain ⟨e, _, hmem1, hstep⟩ := loopBody_fail_remove dig r io s hh hfail he hne
    rw [hr] at hmem1 hstep hne
    refine ⟨l1, x, l2, e, hl, hr, hmem1, hstep, ?_⟩
    have hh1 : headCheck { s with nsIPList := l1 ++ l2, ns := e, errorCount := 0 } = false :=
      headCheck_eq_false _ hns hne
    simp [nextQuery, hh1]

/-- The third failure on the second endpoint of a pool of three. -/
theorem loopBody_failed_query_witness :
    ∃ l1 x l2 e, strikeState.nsIPList = l1 ++ x :: l2 ∧
      removeIP strikeState.nsIPList strikeState.ns.2 = l1 ++ l2 ∧ e ∈ l1 ++ l2 ∧
      loopBody deadDig 1 .ok strikeState =
        .next { strikeState with nsIPList := l1 ++ l2, ns := e, errorCount := 0 } ∧
      nextQuery { strikeState with nsIPList := l1 ++ l2, ns := e, errorCount := 0 } =
        some (e.2, strikeState.currentDomain) :=
  (loopBody_failed_query deadDig 1 .ok strikeState (by decide) (by decide) (by decide)
    (by decide)).2 (by decide)

/-- C3, as stated, fails: with two nameserver names on one IP and the second
one active, `removeIP` takes out the first one, an endpoint with the same IP
and another name, and the active endpoint stays in the pool. -/
theorem removeIP_shared_ip_counterexample :
    ("ns2.example.test", "10.0.0.1") ∈ sharedPool ∧
    removeIP sharedPool "10.0.0.1" = [("ns2.example.test", "10.0.0.1")] ∧
    ("ns1.example.test", "10.0.0.1") ∉ removeIP sharedPool "10.0.0.1" ∧
    ("ns2.example.test", "10.0.0.1") ∈ removeIP sharedPool "10.0.0.1" := by
  decide

/-- C3, amended: for an active endpoint `(name, ip)` of the pool,
`removeIP pool ip` takes out exactly one entry, the first one whose IP is
`ip` whatever its nameserver name, and keeps all the others in their order;
when `(name, ip)` is the only entry of the pool with that IP, the entry taken
out is the active endpoint and it is no longer in the pool. -/
theorem removeIP_first_with_ip (pool : List Endpoint) (name ip : String)
    (h : (name, ip) ∈ pool) :
    (∃ l1 e l2, pool = l1 ++ e :: l2 ∧ e.2 = ip ∧ (∀ x ∈ l1, x.2 ≠ ip) ∧
      removeIP pool ip = l1 ++ l2) ∧
    (pool.filter (fun x => x.2 == ip) = [(name, ip)] →
      ∃ l1 l2, pool = l1 ++ (name, ip) :: l2 ∧ removeIP pool ip = l1 ++ l2 ∧
        (name, ip) ∉ removeIP pool ip) := by
  have hex : ∃ x ∈ pool, x.2 = ip := ⟨(name, ip), h, rfl⟩
  obtain ⟨l1, e, l2, hl, he, hl1, hr⟩ := removeIP_split pool ip hex
  refine ⟨⟨l1, e, l2, hl, he, hl1, hr⟩, ?_⟩
  intro hf
  have hf1 : l1.filter (fun x => x.2 == ip) = [] := by
    rw [List.filter_eq_nil_iff]
    intro x hx
    simpa using hl1 x hx
  rw [hl, List.filter_append, hf1, List.nil_append, List.filter_cons] at hf
  have hb : (e.2 == ip) = true := by simpa using he
  rw [hb] at hf
  simp only [if_true] at hf
  have hee : e = (name, ip) := (List.cons.inj hf).1
  have hf2 : l2.filter (fun x => x.2 == ip) = [] := (List.cons.inj hf).2
  subst hee
  refine ⟨l1, l2, hl, hr, ?_⟩
  rw [hr]
  intro hm
  rcases List.mem_append.mp hm with hm | hm
  · exact hl1 _ hm rfl
  · rw [List.filter_eq_nil_iff] at hf2
    exact hf2 _ hm (by simp)

/-- A pool with distinct IPs: the second endpoint is the one taken out. -/
theorem removeIP_first_with_ip_witness :
    ∃ l1 l2, strikeState.nsIPList = l1 ++ ("ns2.example.test", "10.0.0.2") :: l2 ∧
      removeIP strikeState.nsIPList "10.0.0.2" = l1 ++ l2 ∧
      ("ns2.example.test", "10.0.0.2") ∉ removeIP strikeState.nsIPList "10.0.0.2" :=
  (removeIP_first_with_ip strikeState.nsIPList "ns2.example.test" "10.0.0.2"
    (by decide)).2 (by decide)

/-! ## The loop invariant -/

/-- The three ways an iteration can go from a state with the invariant. -/
theorem loopBody_cases (dig : String → String → Option String) (r : Nat) (io : FileOp)
    (s : WalkState) (h : WalkInv s) :
    (getNSECRecord dig s.ns.2 s.currentDomain = "" ∧
      ((s.errorCount + 1 ≠ 3 ∧
          loopBody dig r io s = .next { s with errorCount := s.errorCount + 1 }) ∨
        (s.errorCount + 1 = 3 ∧ removeIP s.nsIPList s.ns.2 = [] ∧
          loopBody dig r io s =
            .halt .noIPsLeft { s with errorCount := s.errorCount + 1, nsIPList := [] }) ∨
        (s.errorCount + 1 = 3 ∧ removeIP s.nsIPList s.ns.2 ≠ [] ∧
          ∃ e, e ∈ removeIP s.nsIPList s.ns.2 ∧
            loopBody dig r io s =
              .next { s with
                nsIPList := removeIP s.nsIPList s.ns.2, ns := e, errorCount := 0 }))) ∨
    (getNSECRecord dig s.ns.2 s.currentDomain ≠ "" ∧
      (loopBody dig r io s = .halt .success { s with errorCount := 0 } ∨
        (getNSECRecord dig s.ns.2 s.currentDomain ≠ s.domain ∧
          getNSECRecord dig s.ns.2 s.currentDomain ≠ s.currentDomain ∧
          hasPrefix (getNSECRecord dig s.ns.2 s.currentDomain) "\x00." = false ∧
          loopBody dig r io s =
            .next { s with
              errorCount := 0
              count := s.count + 1
              files := writeToFile io s.files (outFile s.domain)
                (getNSECRecord dig s.ns.2 s.currentDomain)
              currentDomain := getNSECRecord dig s.ns.2 s.currentDomain }))) := by
  have hh := headCheck_of_inv s h
  by_cases hf : getNSECRecord dig s.ns.2 s.currentDomain = ""
  · left
    refine ⟨hf, ?_⟩
    by_cases he : s.errorCount + 1 = 3
    · by_cases hl : removeIP s.nsIPList s.ns.2 = []
      · exact Or.inr (Or.inl ⟨he, hl, loopBody_fail_last dig r io s hh hf he hl⟩)
      · obtain ⟨e, _, hm, hstep⟩ := loopBody_fail_remove dig r io s hh hf he hl
        exact Or.inr (Or.inr ⟨he, hl, e, hm, hstep⟩)
    · exact Or.inl ⟨he, loopBody_fail_count dig r io s hh hf he⟩
  · right
    refine ⟨hf, ?_⟩
    by_cases h1 : getNSECRecord dig s.ns.2 s.currentDomain = s.domain
    · exact Or.inl (loopBody_answer_stop dig r io s hh hf (Or.inl h1))
    · by_cases h2 : getNSECRecord dig s.ns.2 s.currentDomain = s.currentDomain
      · exact Or.inl (loopBody_answer_stop dig r io s hh hf (Or.inr (Or.inl h2)))
      · by_cases h3 : hasPrefix (getNSECRecord dig s.ns.2 s.currentDomain) "\x00." = true
        · exact Or.inl (loopBody_answer_stop dig r io s hh hf (Or.inr (Or.inr h3)))
        · have h4 : hasPrefix (getNSECRecord dig s.ns.2 s.currentDomain) "\x00." = false := by
            simpa using h3
          exact Or.inr ⟨h1, h2, h4, loopBody_answer_go dig r io s hh hf h1 h2 h4⟩

theorem loopBody_next_inv (dig : String → String → Option String) (r : Nat) (io : FileOp)
    (s s1 : WalkState) (h : WalkInv s) (hstep : loopBody dig r io s = .next s1) :
    WalkInv s1 := by
  obtain ⟨hns, hp, hm, he⟩ := h
  rcases loopBody_cases dig r io s ⟨hns, hp, hm, he⟩ with
    ⟨_, ⟨he1, hs⟩ | ⟨_, _, hs⟩ | ⟨_, hl, e, hme, hs⟩⟩ | ⟨_, hs | ⟨_, _, _, hs⟩⟩
  · rw [hs] at hstep
    cases hstep
    exact ⟨hns, hp, hm, by show s.errorCount + 1 ≤ 2; omega⟩
  · rw [hs] at hstep
    cases hstep
  · rw [hs] at hstep
    cases hstep
    exact ⟨hns, hl, hme, Nat.zero_le _⟩
  · rw [hs] at hstep
    cases hstep
  · rw [hs] at hstep
    cases hstep
    exact ⟨hns, hp, hm, Nat.zero_le _⟩

theorem loopBody_halt_inv (dig : String → String → Option String) (r : Nat) (io : FileOp)
    (s s1 : WalkState) (o : Outcome) (h : WalkInv s)
    (hstep : loopBody dig r io s = .halt o s1) :
    o = .success ∨ o = .noIPsLeft := by
  rcases loopBody_cases dig r io s h with
    ⟨_, ⟨_, hs⟩ | ⟨_, _, hs⟩ | ⟨_, _, e, _, hs⟩⟩ | ⟨_, hs | ⟨_, _, _, hs⟩⟩
  · rw [hs] at hstep
    cases hstep
  · rw [hs] at hstep
    cases hstep
    exact Or.inr rfl
  · rw [hs] at hstep
    cases hstep
  · rw [hs] at hstep
    cases hstep
    exact Or.inl rfl
  · rw [hs] at hstep
    cases hstep

theorem runLoop_zero (w : World) (t : Nat) (s : WalkState) :
    runLoop w 0 t s = ⟨none, s, []⟩ := rfl

theorem runLoop_halt (w : World) (fuel t : Nat) (s s1 : WalkState) (o : Outcome)
    (h : loopBody (w.digNSEC t) (w.rand (t + 1)) (w.fileOp t) s = .halt o s1) :
    runLoop w (fuel + 1) t s = ⟨some o, s1, [s]⟩ := by
  simp [runLoop, h]

theorem runLoop_next (w : World) (fuel t : Nat) (s s1 : WalkState)
    (h : loopBody (w.digNSEC t) (w.rand (t + 1)) (w.fileOp t) s = .next s1) :
    runLoop w (fuel + 1) t s =
      ⟨(runLoop w fuel (t + 1) s1).outcome, (runLoop w fuel (t + 1) s1).final,
        s :: (runLoop w fuel (t + 1) s1).heads⟩ := by
  simp [runLoop, h]

theorem runLoop_heads_inv (w : World) (fuel : Nat) :
    ∀ (t : Nat) (s : WalkState), WalkInv s → ∀ x ∈ (runLoop w fuel t s).heads, WalkInv x := by
  induction fuel with
  | zero => intro t s _ x hx; simp [runLoop_zero] at hx
  | succ fuel ih =>
    intro t s h x hx
    cases hstep : loopBody (w.digNSEC t) (w.rand (t + 1)) (w.fileOp t) s with
    | halt o s1 =>
      rw [runLoop_halt w fuel t s s1 o hstep] at hx
      simp at hx
      rw [hx]
      exact h
    | next s1 =>
      rw [runLoop_next w fuel t s s1 hstep] at hx
      rcases List.mem_cons.mp hx with rfl | hx
      · exact h
      · exact ih (t + 1) s1 (loopBody_next_inv _ _ _ s s1 h hstep) x hx

theorem runLoop_outcome_inv (w : World) (fuel : Nat) :
    ∀ (t : Nat) (s : WalkState) (o : Outcome), WalkInv s →
      (runLoop w fuel t s).outcome = some o → o = .success ∨ o = .noIPsLeft := by
  induction fuel with
  | zero => intro t s o _ ho; simp [runLoop_zero] at ho
  | succ fuel ih =>
    intro t s o h ho
    cases hstep : loopBody (w.digNSEC t) (w.rand (t + 1)) (w.fileOp t) s with
    | halt o1 s1 =>
      rw [runLoop_halt w fuel t s s1 o1 hstep] at ho
      simp at ho
      subst ho
      exact loopBody_halt_inv _ _ _ s s1 o1 h hstep
    | next s1 =>
      rw [runLoop_next w fuel t s s1 hstep] at ho
      exact ih (t + 1) s1 o (loopBody_next_inv _ _ _ s s1 h hstep) ho

/-- With nameservers and a non-empty pool the first draw succeeds and the
loop is entered in a state with the invariant. -/
theorem walkInit_inv (r0 : Nat) (domain : String) (nameservers : List String)
    (pool : List Endpoint) (hns : nameservers ≠ []) (hp : pool ≠ []) :
    ∃ s0, walkInit r0 domain nameservers pool = some s0 ∧ WalkInv s0 ∧
      s0.domain = domain ∧ s0.currentDomain = domain ∧ s0.count = 0 ∧ s0.files = [] ∧
      s0.nsIPList = pool ∧ s0.nameservers = nameservers := by
  have hpos : 0 < pool.length := List.length_pos.mpr hp
  have hlt : r0 % pool.length < pool.length := Nat.mod_lt _ hpos
  have hne : pool.length ≠ 0 := by omega
  refine ⟨
    { domain := domain
      nameservers := nameservers
      nsIPList := pool
      currentDomain := domain
      count := 0
      errorCount := 0
      ns := pool[r0 % pool.length]
      files := [] }, ?_, ⟨hns, hp, List.getElem_mem _, Nat.zero_le _⟩,
    rfl, rfl, rfl, rfl, rfl, rfl⟩
  simp [walkInit, randIntn, hne, List.getElem?_eq_getElem hlt]

/-! ## Runs in which every query fails -/

theorem queries_eq_length (r : Run) (h : ∀ x ∈ r.heads, WalkInv x) :
    r.queries = r.heads.length := by
  unfold Run.queries
  congr 1
  rw [List.filter_eq_self]
  intro x hx
  simp [headCheck_of_inv x (h x hx)]

/-- The shape of a failing iteration: either the failure count goes up, or
the pool loses one entry and the count restarts, or the last entry goes. -/
theorem loopBody_fail_cases (dig : String → String → Option String) (r : Nat) (io : FileOp)
    (s : WalkState) (h : WalkInv s) (hf : getNSECRecord dig s.ns.2 s.currentDomain = "") :
    (∃ s1, loopBody dig r io s = .next s1 ∧
      3 * s1.nsIPList.length - s1.errorCount + 1 = 3 * s.nsIPList.length - s.errorCount ∧
      ((s1.nsIPList.length = s.nsIPList.length ∧ s1.errorCount = s.errorCount + 1) ∨
        (s1.nsIPList.length + 1 = s.nsIPList.length ∧ s1.errorCount = 0 ∧ s.errorCount = 2)) ∧
      s1.currentDomain = s.currentDomain ∧ s1.count = s.count ∧ s1.files = s.files) ∨
    (∃ s1, loopBody dig r io s = .halt .noIPsLeft s1 ∧
      3 * s.nsIPList.length - s.errorCount = 1 ∧ s1.nsIPList = [] ∧
      s1.currentDomain = s.currentDomain ∧ s1.count = s.count ∧ s1.files = s.files) := by
  have hlen : (removeIP s.nsIPList s.ns.2).length + 1 = s.nsIPList.length :=
    removeIP_length s.nsIPList s.ns.2 ⟨s.ns, h.2.2.1, rfl⟩
  have he := h.2.2.2
  have hpos : 0 < s.nsIPList.length := List.length_pos.mpr h.2.1
  rcases loopBody_cases dig r io s h with
    ⟨_, ⟨he1, hs⟩ | ⟨he1, hl, hs⟩ | ⟨he1, hl, e, _, hs⟩⟩ | ⟨hne, _⟩
  · left
    refine ⟨_, hs, ?_, Or.inl ⟨rfl, rfl⟩, rfl, rfl, rfl⟩
    show 3 * s.nsIPList.length - (s.errorCount + 1) + 1 = 3 * s.nsIPList.length - s.errorCount
    omega
  · right
    rw [hl] at hlen
    simp at hlen
    refine ⟨_, hs, ?_, rfl, rfl, rfl, rfl⟩
    omega
  · left
    refine ⟨_, hs, ?_, Or.inr ⟨hlen, rfl, by omega⟩, rfl, rfl, rfl⟩
    show 3 * (removeIP s.nsIPList s.ns.2).length - 0 + 1 = 3 * s.nsIPList.length - s.errorCount
    omega
  · exact absurd hf hne

theorem runLoop_all_fail (w : World) (fuel : Nat) :
    ∀ (t : Nat) (s : WalkState), WalkInv s →
      (∀ t1, t ≤ t1 → ∀ ip name, getNSECRecord (w.digNSEC t1) ip name = "") →
      (fuel < 3 * s.nsIPList.length - s.errorCount → (runLoop w fuel t s).outcome = none) ∧
      (3 * s.nsIPList.length - s.errorCount ≤ fuel →
        (runLoop w fuel t s).outcome = some .noIPsLeft ∧
        (runLoop w fuel t s).heads.length = 3 * s.nsIPList.length - s.errorCount ∧
        (runLoop w fuel t s).final.nsIPList = [] ∧
        (runLoop w fuel t s).final.currentDomain = s.currentDomain ∧
        (runLoop w fuel t s).final.count = s.count ∧
        (runLoop w fuel t s).final.files = s.files) := by
  induction fuel with
  | zero =>
    intro t s h _
    have he := h.2.2.2
    have hpos : 0 < s.nsIPList.length := List.length_pos.mpr h.2.1
    refine ⟨fun _ => rfl, fun hle => ?_⟩
    omega
  | succ fuel ih =>
    intro t s h hfail
    rcases loopBody_fail_cases (w.digNSEC t) (w.rand (t + 1)) (w.fileOp t) s h
        (hfail t (Nat.le_refl _) _ _) with
      ⟨s1, hs, hm, _, hc, hn, hfl⟩ | ⟨s1, hs, hm, hp, hc, hn, hfl⟩
    · have h1 := loopBody_next_inv _ _ _ s s1 h hs
      obtain ⟨ihlt, ihle⟩ := ih (t + 1) s1 h1 (fun t1 ht1 => hfail t1 (by omega))
      rw [runLoop_next w fuel t s s1 hs]
      refine ⟨fun hlt => ihlt (by omega), fun hle => ?_⟩
      obtain ⟨ho, hlen, hp1, hc1, hn1, hf1⟩ := ihle (by omega)
      refine ⟨ho, ?_, hp1, hc1.trans hc, hn1.trans hn, hf1.trans hfl⟩
      simp only [List.length_cons, hlen]
      exact hm
    · rw [runLoop_halt w fuel t s s1 .noIPsLeft hs]
      refine ⟨fun hlt => ?_, fun _ => ⟨rfl, ?_, hp, hc, hn, hfl⟩⟩
      · omega
      · simp [hm]

theorem runLoop_all_fail_profile (w : World) (fuel : Nat) :
    ∀ (t : Nat) (s : WalkState), WalkInv s →
      (∀ t1, t ≤ t1 → ∀ ip name, getNSECRecord (w.digNSEC t1) ip name = "") →
      ∀ (i : Nat) (x : WalkState), (runLoop w fuel t s).heads[i]? = some x →
        x.nsIPList.length = s.nsIPList.length - (i + s.errorCount) / 3 ∧
        x.errorCount = (i + s.errorCount) % 3 := by
  induction fuel with
  | zero => intro t s _ _ i x hx; simp [runLoop_zero] at hx
  | succ fuel ih =>
    intro t s h hfail i x hx
    have he := h.2.2.2
    rcases loopBody_fail_cases (w.digNSEC t) (w.rand (t + 1)) (w.fileOp t) s h
        (hfail t (Nat.le_refl _) _ _) with
      ⟨s1, hs, _, hd, _, _, _⟩ | ⟨s1, hs, _, _, _, _, _⟩
    · have h1 := loopBody_next_inv _ _ _ s s1 h hs
      rw [runLoop_next w fuel t s s1 hs] at hx
      cases i with
      | zero =>
        simp at hx
        subst hx
        constructor <;> omega
      | succ j =>
        simp only [List.getElem?_cons_succ] at hx
        obtain ⟨hl, hc⟩ := ih (t + 1) s1 h1 (fun t1 ht1 => hfail t1 (by omega)) j x hx
        rcases hd with ⟨hd1, hd2⟩ | ⟨hd1, hd2, hd3⟩
        · rw [hl, hc, hd1, hd2]
          constructor <;> omega
        · rw [hl, hc, hd2, hd3, ← hd1]
          constructor <;> omega
    · rw [runLoop_halt w fuel t s s1 .noIPsLeft hs] at hx
      cases i with
      | zero =>
        simp at hx
        subst hx
        constructor <;> omega
      | succ j => simp at hx

/-! ## Main result on failing endpoints -/

/-- C6: from a walk state with a pool of `k` endpoints (`k ≥ 1`) and a
failure count `e ≤ 2`, when every NSEC query from there on fails, the loop
is still running after fewer than `3 * k - e` iterations and is left with
"No IPs left" at the iteration `3 * k - e`, having issued exactly
`3 * k - e` queries; before the query number `i` the pool holds
`k - (i + e) / 3` entries, one entry going at each third failure in a row;
the current name, the count and the written names are at the end what they
were in that state. -/
theorem all_queries_fail (w : World) (t : Nat) (s : WalkState) (k e : Nat)
    (hinv : WalkInv s) (hk : s.nsIPList.length = k) (he : s.errorCount = e)
    (hfail : ∀ t1, t ≤ t1 → ∀ ip name, getNSECRecord (w.digNSEC t1) ip name = "") :
    (∀ fuel, fuel < 3 * k - e → (runLoop w fuel t s).outcome = none) ∧
    (∀ fuel, 3 * k - e ≤ fuel →
      (runLoop w fuel t s).outcome = some .noIPsLeft ∧
      (runLoop w fuel t s).queries = 3 * k - e ∧
      (runLoop w fuel t s).heads.length = 3 * k - e ∧
      (runLoop w fuel t s).final.nsIPList = [] ∧
      (runLoop w fuel t s).final.currentDomain = s.currentDomain ∧
      (runLoop w fuel t s).final.count = s.count ∧
      (runLoop w fuel t s).final.files = s.files ∧
      ∀ (i : Nat) (x : WalkState), (runLoop w fuel t s).heads[i]? = some x →
        x.nsIPList.length = k - (i + e) / 3 ∧ x.errorCount = (i + e) % 3) := by
  subst hk he
  refine ⟨fun fuel hlt => (runLoop_all_fail w fuel t s hinv hfail).1 hlt, fun fuel hle => ?_⟩
  obtain ⟨ho, hlen, hp, hc, hn, hf⟩ := (runLoop_all_fail w fuel t s hinv hfail).2 hle
  refine ⟨ho, ?_, hlen, hp, hc, hn, hf, runLoop_all_fail_profile w fuel t s hinv hfail⟩
  rw [queries_eq_length _ (runLoop_heads_inv w fuel t s hinv), hlen]

/-- From two pending failures on a pool of three, seven more failing queries
exhaust the pool. -/
theorem all_queries_fail_witness :
    (runLoop deadWorld 7 0 strikeState).outcome = some .noIPsLeft ∧
    (runLoop deadWorld 7 0 strikeState).queries = 3 * 3 - 2 ∧
    (runLoop deadWorld 7 0 strikeState).heads.length = 3 * 3 - 2 ∧
    (runLoop deadWorld 7 0 strikeState).final.nsIPList = [] ∧
    (runLoop deadWorld 7 0 strikeState).final.currentDomain = strikeState.currentDomain ∧
    (runLoop deadWorld 7 0 strikeState).final.count = strikeState.count ∧
    (runLoop deadWorld 7 0 strikeState).final.files = strikeState.files ∧
    ∀ (i : Nat) (x : WalkState), (runLoop deadWorld 7 0 strikeState).heads[i]? = some x →
      x.nsIPList.length = 3 - (i + 2) / 3 ∧ x.errorCount = (i + 2) % 3 :=
  (all_queries_fail deadWorld 0 strikeState 3 2
    ⟨by decide, by decide, by decide, by decide⟩ rfl rfl (fun _ _ _ _ => rfl)).2 7
    (by decide)

/-! ## What a run writes -/

theorem names_zero (w : World) (t : Nat) (s : WalkState) :
    (runLoop w 0 t s).names = [s.currentDomain] := rfl

theorem names_halt (w : World) (fuel t : Nat) (s s1 : WalkState) (o : Outcome)
    (h : loopBody (w.digNSEC t) (w.rand (t + 1)) (w.fileOp t) s = .halt o s1) :
    (runLoop w (fuel + 1) t s).names = [s.currentDomain, s1.currentDomain] := by
  rw [runLoop_halt w fuel t s s1 o h]
  rfl

theorem names_next (w : World) (fuel t : Nat) (s s1 : WalkState)
    (h : loopBody (w.digNSEC t) (w.rand (t + 1)) (w.fileOp t) s = .next s1) :
    (runLoop w (fuel + 1) t s).names = s.currentDomain :: (runLoop w fuel (t + 1) s1).names := by
  rw [runLoop_next w fuel t s s1 h]
  rfl

theorem names_head (w : World) (fuel t : Nat) (s : WalkState) :
    ∃ tl, (runLoop w fuel t s).names = s.currentDomain :: tl := by
  cases fuel with
  | zero => exact ⟨[], rfl⟩
  | succ fuel =>
    cases hstep : loopBody (w.digNSEC t) (w.rand (t + 1)) (w.fileOp t) s with
    | halt o s1 => exact ⟨_, names_halt w fuel t s s1 o hstep⟩
    | next s1 => exact ⟨_, names_next w fuel t s s1 hstep⟩

theorem nameTransitions_same (a : String) (tl : List String) :
    nameTransitions (a :: a :: tl) = nameTransitions (a :: tl) := by
  simp [nameTransitions]

theorem nameTransitions_change (a b : String) (tl : List String) (h : a ≠ b) :
    nameTransitions (a :: b :: tl) = b :: nameTransitions (b :: tl) := by
  simp [nameTransitions, h]

/-- What one iteration that goes on does to the names and the files: either
the current name, the count and the files stay, or the answer `n`, which is
not the current name, becomes the current name, the count grows by one and
`writeToFile` is called on `n`. -/
theorem loopBody_next_record (dig : String → String → Option String) (r : Nat) (io : FileOp)
    (s s1 : WalkState) (h : WalkInv s) (hstep : loopBody dig r io s = .next s1) :
    s1.domain = s.domain ∧
    ((s1.currentDomain = s.currentDomain ∧ s1.count = s.count ∧ s1.files = s.files ∧
        3 * s1.nsIPList.length - s1.errorCount < 3 * s.nsIPList.length - s.errorCount) ∨
      (s1.currentDomain = getNSECRecord dig s.ns.2 s.currentDomain ∧
        s1.currentDomain ≠ s.currentDomain ∧ s1.currentDomain ≠ s.domain ∧
        s1.currentDomain ≠ "" ∧ hasPrefix s1.currentDomain "\x00." = false ∧
        s1.count = s.count + 1 ∧
        s1.files = writeToFile io s.files (outFile s.domain) s1.currentDomain)) := by
  rcases loopBody_cases dig r io s h with ⟨hf, _⟩ | ⟨hne, hs | ⟨h1, h2, h3, hs⟩⟩
  · rcases loopBody_fail_cases dig r io s h hf with
      ⟨s2, hs, hm, _, hc, hn, hfl⟩ | ⟨s2, hs, _⟩
    · rw [hs] at hstep
      cases hstep
      have hd : s1.domain = s.domain := by
        rcases loopBody_cases dig r io s h with
          ⟨_, ⟨_, hs1⟩ | ⟨_, _, hs1⟩ | ⟨_, _, e, _, hs1⟩⟩ | ⟨hne, _⟩
        · rw [hs1] at hs
          cases hs
          rfl
        · rw [hs1] at hs
          cases hs
        · rw [hs1] at hs
          cases hs
          rfl
        · exact absurd hf hne
      exact ⟨hd, Or.inl ⟨hc, hn, hfl, by omega⟩⟩
    · rw [hs] at hstep
      cases hstep
  · rw [hs] at hstep
    cases hstep
  · rw [hs] at hstep
    cases hstep
    exact ⟨rfl, Or.inr ⟨rfl, h2, h1, hne, h3, rfl, rfl⟩⟩

theorem loopBody_halt_record (dig : String → String → Option String) (r : Nat) (io : FileOp)
    (s s1 : WalkState) (o : Outcome) (h : WalkInv s) (hstep : loopBody dig r io s = .halt o s1) :
    s1.domain = s.domain ∧ s1.currentDomain = s.currentDomain ∧ s1.count = s.count ∧
      s1.files = s.files := by
  rcases loopBody_cases dig r io s h with
    ⟨_, ⟨_, hs⟩ | ⟨_, _, hs⟩ | ⟨_, _, e, _, hs⟩⟩ | ⟨_, hs | ⟨_, _, _, hs⟩⟩
  all_goals
    rw [hs] at hstep
    cases hstep
  all_goals exact ⟨rfl, rfl, rfl, rfl⟩

theorem runLoop_record (w : World) (hio : ∀ t, w.fileOp t = .ok) (fuel : Nat) :
    ∀ (t : Nat) (s : WalkState), WalkInv s →
      (runLoop w fuel t s).final.domain = s.domain ∧
      (runLoop w fuel t s).final.files =
        s.files ++ (nameTransitions (runLoop w fuel t s).names).map
          (fun n => (outFile s.domain, n ++ "\n")) ∧
      (runLoop w fuel t s).final.count =
        s.count + (nameTransitions (runLoop w fuel t s).names).length ∧
      List.Chain (fun a b => a ≠ b) s.currentDomain
        (nameTransitions (runLoop w fuel t s).names) := by
  induction fuel with
  | zero =>
    intro t s _
    rw [names_zero]
    simp [runLoop_zero, nameTransitions]
  | succ fuel ih =>
    intro t s h
    cases hstep : loopBody (w.digNSEC t) (w.rand (t + 1)) (w.fileOp t) s with
    | halt o s1 =>
      obtain ⟨hd, hc, hn, hf⟩ := loopBody_halt_record _ _ _ s s1 o h hstep
      rw [names_halt w fuel t s s1 o hstep, runLoop_halt w fuel t s s1 o hstep, hc,
        nameTransitions_same]
      simp [nameTransitions, hd, hn, hf]
    | next s1 =>
      have h1 := loopBody_next_inv _ _ _ s s1 h hstep
      obtain ⟨ihd, ihf, ihn, ihc⟩ := ih (t + 1) s1 h1
      obtain ⟨tl, htl⟩ := names_head w fuel (t + 1) s1
      obtain ⟨hd, hrec⟩ := loopBody_next_record _ _ _ s s1 h hstep
      rw [names_next w fuel t s s1 hstep, runLoop_next w fuel t s s1 hstep]
      simp only
      rw [htl] at ihf ihn ihc ⊢
      rcases hrec with ⟨hc, hn, hf, _⟩ | ⟨_, hc, _, _, _, hn, hf⟩
      · rw [hc] at ihf ihn ihc ⊢
        rw [nameTransitions_same]
        rw [hd, hf] at ihf
        rw [hn] at ihn
        exact ⟨ihd.trans hd, ihf, ihn, ihc⟩
      · rw [nameTransitions_change _ _ _ (Ne.symm hc)]
        rw [hf, hio t] at ihf
        refine ⟨ihd.trans hd, ?_, ?_, List.Chain.cons (Ne.symm hc) ihc⟩
        · rw [ihf, hd]
          simp [writeToFile]
        · rw [ihn, hn]
          simp
          omega

/-! ## Termination -/

theorem runLoop_terminates (w : World) (rank : String → Nat) (d : String)
    (hrank : ∀ t ip name,
      getNSECRecord (w.digNSEC t) ip name = "" ∨
      getNSECRecord (w.digNSEC t) ip name = d ∨
      getNSECRecord (w.digNSEC t) ip name = name ∨
      hasPrefix (getNSECRecord (w.digNSEC t) ip name) "\x00." = true ∨
      rank (getNSECRecord (w.digNSEC t) ip name) < rank name) :
    ∀ (N m : Nat) (t : Nat) (s : WalkState), WalkInv s → s.domain = d →
      rank s.currentDomain ≤ N → 3 * s.nsIPList.length - s.errorCount ≤ m →
      ∃ fuel o, (runLoop w fuel t s).outcome = some o ∧ (o = .success ∨ o = .noIPsLeft) := by
  intro N
  induction N with
  | zero =>
    intro m
    induction m with
    | zero =>
      intro t s h _ _ hm
      have he := h.2.2.2
      have hpos : 0 < s.nsIPList.length := List.length_pos.mpr h.2.1
      omega
    | succ m ihm =>
      intro t s h hd hN hm
      cases hstep : loopBody (w.digNSEC t) (w.rand (t + 1)) (w.fileOp t) s with
      | halt o s1 =>
        exact ⟨1, o, by rw [runLoop_halt w 0 t s s1 o hstep],
          loopBody_halt_inv _ _ _ s s1 o h hstep⟩
      | next s1 =>
        have h1 := loopBody_next_inv _ _ _ s s1 h hstep
        obtain ⟨hd1, hrec⟩ := loopBody_next_record _ _ _ s s1 h hstep
        rcases hrec with ⟨hc, _, _, hlt⟩ | ⟨hq, hc, hcd, hce, hcp, _, _⟩
        · obtain ⟨fuel, o, ho, hoo⟩ :=
            ihm (t + 1) s1 h1 (hd1.trans hd) (by rw [hc]; exact hN) (by omega)
          exact ⟨fuel + 1, o, by rw [runLoop_next w fuel t s s1 hstep]; exact ho, hoo⟩
        · exfalso
          rcases hrank t s.ns.2 s.currentDomain with hr | hr | hr | hr | hr
          · rw [← hq] at hr; exact hce hr
          · rw [← hq, ← hd] at hr; exact hcd hr
          · rw [← hq] at hr; exact hc hr
          · rw [← hq, hcp] at hr; cases hr
          · rw [← hq] at hr; omega
  | succ N ihN =>
    intro m
    induction m with
    | zero =>
      intro t s h _ _ hm
      have he := h.2.2.2
      have hpos : 0 < s.nsIPList.length := List.length_pos.mpr h.2.1
      omega
    | succ m ihm =>
      intro t s h hd hN hm
      cases hstep : loopBody (w.digNSEC t) (w.rand (t + 1)) (w.fileOp t) s with
      | halt o s1 =>
        exact ⟨1, o, by rw [runLoop_halt w 0 t s s1 o hstep],
          loopBody_halt_inv _ _ _ s s1 o h hstep⟩
      | next s1 =>
        have h1 := loopBody_next_inv _ _ _ s s1 h hstep
        obtain ⟨hd1, hrec⟩ := loopBody_next_record _ _ _ s s1 h hstep
        rcases hrec with ⟨hc, _, _, hlt⟩ | ⟨hq, hc, hcd, hce, hcp, _, _⟩
        · obtain ⟨fuel, o, ho, hoo⟩ :=
            ihm (t + 1) s1 h1 (hd1.trans hd) (by rw [hc]; exact hN) (by omega)
          exact ⟨fuel + 1, o, by rw [runLoop_next w fuel t s s1 hstep]; exact ho, hoo⟩
        · have hlt : rank s1.currentDomain < rank s.currentDomain := by
            rcases hrank t s.ns.2 s.currentDomain with hr | hr | hr | hr | hr
            · rw [← hq] at hr; exact absurd hr hce
            · rw [← hq, ← hd] at hr; exact absurd hr hcd
            · rw [← hq] at hr; exact absurd hr hc
            · rw [← hq, hcp] at hr; cases hr
            · rw [← hq] at hr; exact hr
          obtain ⟨fuel, o, ho, hoo⟩ :=
            ihN (3 * s1.nsIPList.length - s1.errorCount) (t + 1) s1 h1 (hd1.trans hd)
              (by omega) (Nat.le_refl _)
          exact ⟨fuel + 1, o, by rw [runLoop_next w fuel t s s1 hstep]; exact ho, hoo⟩

/-! ## The whole of `nsecCrawl` -/

theorem nsecCrawl_cases (digNS digA : String → Option String) (w : World) (fuel : Nat)
    (domain : String) :
    nsecCrawl digNS digA w fuel domain = .noNameservers ∨
    nsecCrawl digNS digA w fuel domain = .noIPs ∨
    ∃ s0, WalkInv s0 ∧ s0.domain = cleanDomain domain ∧
      s0.currentDomain = cleanDomain domain ∧ s0.count = 0 ∧ s0.files = [] ∧
      s0.nsIPList = getNameserverIPs digA (getNameservers digNS (cleanDomain domain)) (cleanDomain domain) ∧
      nsecCrawl digNS digA w fuel domain = .walked (runLoop w fuel 0 s0) := by
  by_cases hns : (getNameservers digNS (cleanDomain domain)).length = 0
  · left
    simp [nsecCrawl, hns]
  · by_cases hp :
      (getNameserverIPs digA (getNameservers digNS (cleanDomain domain)) (cleanDomain domain)).length = 0
    · right; left
      simp [nsecCrawl, hns, hp]
    · right; right
      have hns1 : getNameservers digNS (cleanDomain domain) ≠ [] := by
        intro h; rw [h] at hns; exact hns rfl
      have hp1 : getNameserverIPs digA (getNameservers digNS (cleanDomain domain)) (cleanDomain domain) ≠ [] := by
        intro h; rw [h] at hp; exact hp rfl
      obtain ⟨s0, hinit, hinv, hd, hc, hn, hf, hpl, _⟩ :=
        walkInit_inv (w.rand 0) (cleanDomain domain) _ _ hns1 hp1
      refine ⟨s0, hinv, hd, hc, hn, hf, hpl, ?_⟩
      simp only [nsecCrawl, hns, hp, if_false, hinit]

/-! ## Main results on whole walks -/

/-- C4, as stated, fails: when the output file cannot be opened the walk of
the sample zone still ends in success with the count 1 and the one new
current name `b.example.test`, and nothing has been written. -/
theorem written_names_counterexample :
    nsecCrawl zoneNS zoneA noDirWorld 5 "example.test" =
      .walked (runLoop noDirWorld 5 0 zoneStart) ∧
    (runLoop noDirWorld 5 0 zoneStart).outcome = some .success ∧
    nameTransitions (runLoop noDirWorld 5 0 zoneStart).names = ["b.example.test"] ∧
    (runLoop noDirWorld 5 0 zoneStart).final.count = 1 ∧
    (runLoop noDirWorld 5 0 zoneStart).final.files = [] := by
  refine ⟨by decide, by decide, by decide, by decide, by decide⟩

/-- C4, amended: for every walk of `nsecCrawl` that ends in the success
outcome and in which every file operation of `writeToFile` succeeds, under
any resolver and any random picks: the appends made, in order, are the lines
of the values the current name took after the start domain, in order, all to
the output file of the domain; their number is the final count; no entry
equals the one before it, and the first is not the start domain. -/
theorem nsecCrawl_written_names (digNS digA : String → Option String) (w : World)
    (fuel : Nat) (domain : String) (r : Run)
    (hw : nsecCrawl digNS digA w fuel domain = .walked r)
    (_hs : r.outcome = some .success) (hio : ∀ t, w.fileOp t = .ok) :
    r.final.files =
      (nameTransitions r.names).map (fun n => (outFile (cleanDomain domain), n ++ "\n")) ∧
    (nameTransitions r.names).length = r.final.count ∧
    List.Chain (fun a b => a ≠ b) (cleanDomain domain) (nameTransitions r.names) ∧
    r.names.head? = some (cleanDomain domain) := by
  rcases nsecCrawl_cases digNS digA w fuel domain with h | h | ⟨s0, hinv, hd, hc, hn, hf, _, h⟩
  · rw [h] at hw; cases hw
  · rw [h] at hw; cases hw
  · rw [h] at hw
    cases hw
    obtain ⟨_, h2, h3, h4⟩ := runLoop_record w hio fuel 0 s0 hinv
    obtain ⟨tl, htl⟩ := names_head w fuel 0 s0
    rw [hf, hd] at h2
    rw [hn] at h3
    rw [hc] at h4
    refine ⟨by simpa using h2, by omega, h4, ?_⟩
    rw [htl, hc]
    rfl

/-- The sample walk with a working file system. -/
theorem nsecCrawl_written_names_witness :
    (runLoop zoneWorld 5 0 zoneStart).final.files =
      (nameTransitions (runLoop zoneWorld 5 0 zoneStart).names).map
        (fun n => (outFile (cleanDomain "example.test"), n ++ "\n")) ∧
    (nameTransitions (runLoop zoneWorld 5 0 zoneStart).names).length =
      (runLoop zoneWorld 5 0 zoneStart).final.count ∧
    List.Chain (fun a b => a ≠ b) (cleanDomain "example.test")
      (nameTransitions (runLoop zoneWorld 5 0 zoneStart).names) ∧
    (runLoop zoneWorld 5 0 zoneStart).names.head? = some (cleanDomain "example.test") :=
  nsecCrawl_written_names zoneNS zoneA zoneWorld 5 "example.test"
    (runLoop zoneWorld 5 0 zoneStart) (by decide) (by decide) (fun _ => rfl)

/-- C10: in every run of `nsecCrawl` the first draw does not panic, and when
the loop is entered (the discovered pool is not empty) every iteration starts
with a non-empty pool that holds the active endpoint, so that the check at
the head of the loop lets it pass; the loop is never left by a panic of
`rand.Intn` or of the indexing, nor by the return at its head. -/
theorem nsecCrawl_pool_invariant (digNS digA : String → Option String) (w : World)
    (fuel : Nat) (domain : String) :
    nsecCrawl digNS digA w fuel domain ≠ .panic ∧
    ∀ r, nsecCrawl digNS digA w fuel domain = .walked r →
      (∀ s ∈ r.heads, s.nsIPList ≠ [] ∧ s.ns ∈ s.nsIPList ∧ headCheck s = false) ∧
      r.outcome ≠ some .panic ∧ r.outcome ≠ some .noNameserversLeft := by
  rcases nsecCrawl_cases digNS digA w fuel domain with h | h | ⟨s0, hinv, _, _, _, _, _, h⟩
  · rw [h]
    refine ⟨?_, ?_⟩
    · intro hc
      cases hc
    · intro r hr
      cases hr
  · rw [h]
    refine ⟨?_, ?_⟩
    · intro hc
      cases hc
    · intro r hr
      cases hr
  · rw [h]
    refine ⟨?_, ?_⟩
    · intro hc
      cases hc
    intro r hr
    cases hr
    refine ⟨?_, ?_, ?_⟩
    · intro s hs
      have hi := runLoop_heads_inv w fuel 0 s0 hinv s hs
      exact ⟨hi.2.1, hi.2.2.1, headCheck_of_inv s hi⟩
    · intro ho
      rcases runLoop_outcome_inv w fuel 0 s0 _ hinv ho with h1 | h1 <;> cases h1
    · intro ho
      rcases runLoop_outcome_inv w fuel 0 s0 _ hinv ho with h1 | h1 <;> cases h1

/-- The walk of the sample zone on dead endpoints. -/
theorem nsecCrawl_pool_invariant_witness :
    (∀ s ∈ (runLoop deadWorld 9 0 zoneStart).heads,
      s.nsIPList ≠ [] ∧ s.ns ∈ s.nsIPList ∧ headCheck s = false) ∧
    (runLoop deadWorld 9 0 zoneStart).outcome ≠ some .panic ∧
    (runLoop deadWorld 9 0 zoneStart).outcome ≠ some .noNameserversLeft :=
  (nsecCrawl_pool_invariant zoneNS zoneA deadWorld 9 "example.test").2
    (runLoop deadWorld 9 0 zoneStart) (by decide)

/-! ## A walk that never ends -/

theorem cycleDig_start (ip : String) :
    getNSECRecord cycleDig ip "example.test" = "b.example.test" := by
  have h : getNSECRecord cycleDig "" "example.test" = "b.example.test" := by decide
  exact h

theorem cycleDig_b (ip : String) :
    getNSECRecord cycleDig ip "b.example.test" = "c.example.test" := by
  have h : getNSECRecord cycleDig "" "b.example.test" = "c.example.test" := by decide
  exact h

theorem cycleDig_c (ip : String) :
    getNSECRecord cycleDig ip "c.example.test" = "b.example.test" := by
  have h : getNSECRecord cycleDig "" "c.example.test" = "b.example.test" := by decide
  exact h

theorem runLoop_cycle (fuel : Nat) :
    ∀ (t : Nat) (s : WalkState), WalkInv s → s.domain = "example.test" →
      (s.currentDomain = "example.test" ∨ s.currentDomain = "b.example.test" ∨
        s.currentDomain = "c.example.test") →
      (runLoop cycleWorld fuel t s).outcome = none := by
  induction fuel with
  | zero => intro t s _ _ _; rfl
  | succ fuel ih =>
    intro t s h hd hc
    have hh := headCheck_of_inv s h
    have key : ∀ n : String, getNSECRecord cycleDig s.ns.2 s.currentDomain = n →
        n ≠ "" → n ≠ "example.test" → n ≠ s.currentDomain →
        hasPrefix n "\x00." = false → (n = "b.example.test" ∨ n = "c.example.test") →
        (runLoop cycleWorld (fuel + 1) t s).outcome = none := by
      intro n hq h0 h1 h2 h3 h4
      have hstep := loopBody_answer_go cycleDig (cycleWorld.rand (t + 1)) (cycleWorld.fileOp t) s
        hh (by rw [hq]; exact h0) (by rw [hq, hd]; exact h1) (by rw [hq]; exact h2)
        (by rw [hq]; exact h3)
      have h1s := loopBody_next_inv _ _ _ s _ h hstep
      rw [runLoop_next cycleWorld fuel t s _ hstep]
      apply ih (t + 1) _ h1s hd
      right
      show getNSECRecord cycleDig s.ns.2 s.currentDomain = "b.example.test" ∨
        getNSECRecord cycleDig s.ns.2 s.currentDomain = "c.example.test"
      rw [hq]
      exact h4
    rcases hc with hc | hc | hc
    · exact key "b.example.test" (by rw [hc]; exact cycleDig_start _) (by decide) (by decide)
        (by rw [hc]; decide) (by decide) (Or.inl rfl)
    · exact key "c.example.test" (by rw [hc]; exact cycleDig_b _) (by decide) (by decide)
        (by rw [hc]; decide) (by decide) (Or.inr rfl)
    · exact key "b.example.test" (by rw [hc]; exact cycleDig_c _) (by decide) (by decide)
        (by rw [hc]; decide) (by decide) (Or.inl rfl)

theorem zoneStart_inv : WalkInv zoneStart :=
  ⟨by decide, by decide, by decide, by decide⟩

theorem nsecCrawl_zone (w : World) (hr : w.rand 0 = 0) (fuel : Nat) :
    nsecCrawl zoneNS zoneA w fuel "example.test" = .walked (runLoop w fuel 0 zoneStart) := by
  have h1 : cleanDomain "example.test" = "example.test" := by decide
  have h2 : getNameservers zoneNS "example.test" = ["ns1.example.test"] := by decide
  have h3 : getNameserverIPs zoneA ["ns1.example.test"] "example.test" = zonePool := by decide
  have h4 : walkInit 0 "example.test" ["ns1.example.test"] zonePool = some zoneStart := by
    decide
  have h5 : zonePool.length ≠ 0 := by decide
  simp only [nsecCrawl, h1, h2, h3, hr, h4, List.length_singleton, one_ne_zero, if_false, h5]

theorem runLoop_heads_length (w : World) (fuel : Nat) :
    ∀ (t : Nat) (s : WalkState), (runLoop w fuel t s).heads.length ≤ fuel := by
  induction fuel with
  | zero => intro t s; simp [runLoop_zero]
  | succ fuel ih =>
    intro t s
    cases hstep : loopBody (w.digNSEC t) (w.rand (t + 1)) (w.fileOp t) s with
    | halt o s1 =>
      rw [runLoop_halt w fuel t s s1 o hstep]
      simp
    | next s1 =>
      rw [runLoop_next w fuel t s s1 hstep]
      simp
      exact ih (t + 1) s1

theorem queries_le_length (r : Run) : r.queries ≤ r.heads.length := by
  unfold Run.queries
  exact List.length_filter_le _ _

/-- In the sample zone every answer is a failure, the start domain, or a
name of smaller rank. -/
theorem zoneWorld_ranked (t : Nat) (ip name : String) :
    getNSECRecord (zoneWorld.digNSEC t) ip name = "" ∨
    getNSECRecord (zoneWorld.digNSEC t) ip name = "example.test" ∨
    getNSECRecord (zoneWorld.digNSEC t) ip name = name ∨
    hasPrefix (getNSECRecord (zoneWorld.digNSEC t) ip name) "\x00." = true ∨
    zoneRank (getNSECRecord (zoneWorld.digNSEC t) ip name) < zoneRank name := by
  show getNSECRecord zoneDig ip name = "" ∨ getNSECRecord zoneDig ip name = "example.test" ∨
    getNSECRecord zoneDig ip name = name ∨
    hasPrefix (getNSECRecord zoneDig ip name) "\x00." = true ∨
    zoneRank (getNSECRecord zoneDig ip name) < zoneRank name
  by_cases h1 : name = "example.test"
  · subst h1
    right; right; right; right
    have h : zoneRank (getNSECRecord zoneDig "" "example.test") < zoneRank "example.test" := by
      decide
    exact h
  · by_cases h2 : name = "b.example.test"
    · subst h2
      right; left
      have h : getNSECRecord zoneDig "" "b.example.test" = "example.test" := by decide
      exact h
    · left
      simp [getNSECRecord, zoneDig, h1, h2]

/-! ## Main results on termination -/

/-- C5, as stated, fails: with a resolver (a function of IP and name) that
answers `b.example.test` for `example.test`, `c.example.test` for
`b.example.test` and `b.example.test` for `c.example.test`, the walk of
`example.test` is still running after any number of iterations. -/
theorem termination_counterexample :
    walkInit 0 "example.test" ["ns1.example.test"] zonePool = some zoneStart ∧
    ∀ fuel : Nat,
      nsecCrawl zoneNS zoneA cycleWorld fuel "example.test" =
        .walked (runLoop cycleWorld fuel 0 zoneStart) ∧
      (runLoop cycleWorld fuel 0 zoneStart).outcome = none :=
  ⟨by decide, fun fuel => ⟨nsecCrawl_zone cycleWorld rfl fuel,
    runLoop_cycle fuel 0 zoneStart zoneStart_inv rfl (Or.inl rfl)⟩⟩

/-- C5, amended: for every start domain, every non-empty pool, every
resolver and every sequence of random picks, the walk loop reaches a terminal
outcome (success, or endpoints exhausted) after finitely many queries,
provided the answers make progress: for some rank of the names, every answer
that is neither a failure, nor the start domain, nor the queried name, nor
NUL-prefixed has a smaller rank than the queried name. -/
theorem walk_terminates_when_ranked (w : World) (rank : String → Nat) (r0 : Nat)
    (domain : String) (nameservers : List String) (pool : List Endpoint)
    (hns : nameservers ≠ []) (hp : pool ≠ [])
    (hrank : ∀ t ip name,
      getNSECRecord (w.digNSEC t) ip name = "" ∨
      getNSECRecord (w.digNSEC t) ip name = domain ∨
      getNSECRecord (w.digNSEC t) ip name = name ∨
      hasPrefix (getNSECRecord (w.digNSEC t) ip name) "\x00." = true ∨
      rank (getNSECRecord (w.digNSEC t) ip name) < rank name) :
    ∃ s0 fuel o, walkInit r0 domain nameservers pool = some s0 ∧
      (runLoop w fuel 0 s0).outcome = some o ∧ (o = .success ∨ o = .noIPsLeft) ∧
      (runLoop w fuel 0 s0).queries ≤ fuel := by
  obtain ⟨s0, hinit, hinv, hd, _, _, _, _, _⟩ := walkInit_inv r0 domain nameservers pool hns hp
  obtain ⟨fuel, o, ho, hoo⟩ :=
    runLoop_terminates w rank domain hrank (rank s0.currentDomain)
      (3 * s0.nsIPList.length - s0.errorCount) 0 s0 hinv hd (Nat.le_refl _) (Nat.le_refl _)
  exact ⟨s0, fuel, o, hinit, ho, hoo,
    Nat.le_trans (queries_le_length _) (runLoop_heads_length w fuel 0 s0)⟩

/-- The sample zone, whose answers lead back to the start domain. -/
theorem walk_terminates_when_ranked_witness :
    ∃ s0 fuel o, walkInit 0 "example.test" ["ns1.example.test"] zonePool = some s0 ∧
      (runLoop zoneWorld fuel 0 s0).outcome = some o ∧ (o = .success ∨ o = .noIPsLeft) ∧
      (runLoop zoneWorld fuel 0 s0).queries ≤ fuel :=
  walk_terminates_when_ranked zoneWorld zoneRank 0 "example.test" ["ns1.example.test"] zonePool
    (by decide) (by decide) zoneWorld_ranked

/-! ## Nameserver discovery -/

theorem foldl_append_pairs (ns : String) (ips : List String) :
    ∀ acc : List Endpoint,
      ips.foldl (fun l ip => l ++ [(ns, ip)]) acc = acc ++ ips.map (fun ip => (ns, ip)) := by
  induction ips with
  | nil => intro acc; simp
  | cons ip ips ih => intro acc; simp [List.foldl_cons, ih]

theorem getNameserverIPsLoop_eq (digA : String → Option String) (nameservers : List String) :
    ∀ acc : List Endpoint,
      getNameserverIPsLoop digA nameservers acc =
        acc ++ endpointsOf (fun ns => (digA ns).map fields) nameservers := by
  induction nameservers with
  | nil => intro acc; simp [getNameserverIPsLoop, endpointsOf]
  | cons ns rest ih =>
    intro acc
    cases hd : digA ns with
    | none => simp [getNameserverIPsLoop, endpointsOf, hd, ih]
    | some out =>
      by_cases hl : (fields out).length = 0
      · have hnil : fields out = [] := List.length_eq_zero.mp hl
        simp [getNameserverIPsLoop, endpointsOf, hd, ih, hnil]
      · simp [getNameserverIPsLoop, endpointsOf, hd, ih, hl, foldl_append_pairs]

/-- C7: for every list of nameserver names and every address lookup (each
name gives a failure or an output with a possibly empty list of address
tokens), `getNameserverIPs` returns the concatenation, in nameserver order,
of the pairs `(name, ip)` for each token of that name's answer in answer
order; a failed or empty lookup adds nothing and the nameservers after it are
still processed; nothing is deduplicated. -/
theorem getNameserverIPs_eq (digA : String → Option String) (nameservers : List String)
    (domain : String) :
    getNameserverIPs digA nameservers domain =
      endpointsOf (fun ns => (digA ns).map fields) nameservers := by
  unfold getNameserverIPs
  rw [getNameserverIPsLoop_eq]
  simp

/-- The sample of the specification: `ns1` resolves to `10.0.0.1`, `ns2`
fails to resolve. -/
theorem getNameserverIPs_eq_witness :
    getNameserverIPs (fun ns => if ns = "ns1.example.test" then some "10.0.0.1\n" else none)
        ["ns1.example.test", "ns2.example.test"] "example.test" =
      [("ns1.example.test", "10.0.0.1")] :=
  (getNameserverIPs_eq _ _ _).trans (by decide)

/-! ## The answer of an NSEC query -/

theorem nsecScan_eq_find (lines : List String) :
    nsecScan lines =
      match lines.find? (fun line => !hasPrefix line ";;" && !(fields line).isEmpty) with
      | none => ""
      | some line => trimSuffix ((fields line).headD "") "." := by
  induction lines with
  | nil => rfl
  | cons line rest ih =>
    by_cases hc : hasPrefix line ";;" = true
    · simp [nsecScan, hc, List.find?_cons, ih]
    · have hc1 : hasPrefix line ";;" = false := by simpa using hc
      cases hf : fields line with
      | nil => simp [nsecScan, hc1, List.find?_cons, ih, hf]
      | cons f0 fs => simp [nsecScan, hc1, List.find?_cons, hf]

theorem nsecScan_split (lines : List String) :
    ((∀ l ∈ lines, hasPrefix l ";;" = true ∨ fields l = []) ∧ nsecScan lines = "") ∨
    ∃ pre line post tok toks, lines = pre ++ line :: post ∧
      (∀ l ∈ pre, hasPrefix l ";;" = true ∨ fields l = []) ∧
      hasPrefix line ";;" = false ∧ fields line = tok :: toks ∧
      nsecScan lines = trimSuffix tok "." := by
  induction lines with
  | nil => left; exact ⟨by simp, rfl⟩
  | cons line rest ih =>
    by_cases hc : hasPrefix line ";;" = true
    · rcases ih with ⟨hall, hr⟩ | ⟨pre, ln, post, tok, toks, hl, hpre, hln, hf, hr⟩
      · left
        refine ⟨?_, by simp [nsecScan, hc, hr]⟩
        intro l hl
        rcases List.mem_cons.mp hl with rfl | hl
        · exact Or.inl hc
        · exact hall l hl
      · right
        refine ⟨line :: pre, ln, post, tok, toks, by simp [hl], ?_, hln, hf,
          by simp [nsecScan, hc, hr]⟩
        intro l hl
        rcases List.mem_cons.mp hl with rfl | hl
        · exact Or.inl hc
        · exact hpre l hl
    · have hc1 : hasPrefix line ";;" = false := by simpa using hc
      cases hf : fields line with
      | nil =>
        rcases ih with ⟨hall, hr⟩ | ⟨pre, ln, post, tok, toks, hl, hpre, hln, hf1, hr⟩
        · left
          refine ⟨?_, by simp [nsecScan, hc1, hf, hr]⟩
          intro l hl
          rcases List.mem_cons.mp hl with rfl | hl
          · exact Or.inr hf
          · exact hall l hl
        · right
          refine ⟨line :: pre, ln, post, tok, toks, by simp [hl], ?_, hln, hf1,
            by simp [nsecScan, hc1, hf, hr]⟩
          intro l hl
          rcases List.mem_cons.mp hl with rfl | hl
          · exact Or.inr hf
          · exact hpre l hl
      | cons f0 fs =>
        right
        exact ⟨[], line, rest, f0, fs, rfl, by simp, hc1, hf, by simp [nsecScan, hc1, hf]⟩

theorem fieldsChars_nil : fieldsChars [] = [] := rfl

theorem fieldsChars_cons (c : Char) (cs : List Char) :
    fieldsChars (c :: cs) =
      if isSpace c then fieldsChars cs
      else
        match cs with
        | [] => [[c]]
        | d :: _ =>
          if isSpace d then [c] :: fieldsChars cs
          else
            match fieldsChars cs with
            | tok :: rest => (c :: tok) :: rest
            | [] => [[c]] := by
  cases cs <;> rfl


theorem fieldsChars_space (c : Char) (cs : List Char) (h : isSpace c = true) :
    fieldsChars (c :: cs) = fieldsChars cs := by
  rw [fieldsChars_cons, if_pos h]

theorem fieldsChars_last (c : Char) (h : isSpace c = false) : fieldsChars [c] = [[c]] := by
  rw [fieldsChars_cons, if_neg (by rw [h]; exact Bool.false_ne_true)]

theorem fieldsChars_end (c d : Char) (ds : List Char) (h : isSpace c = false)
    (hd : isSpace d = true) :
    fieldsChars (c :: d :: ds) = [c] :: fieldsChars (d :: ds) := by
  rw [fieldsChars_cons, if_neg (by rw [h]; exact Bool.false_ne_true)]
  show (if isSpace d = true then [c] :: fieldsChars (d :: ds) else _) = _
  rw [if_pos hd]

theorem fieldsChars_grow (c d : Char) (ds : List Char) (h : isSpace c = false)
    (hd : isSpace d = false) :
    fieldsChars (c :: d :: ds) =
      match fieldsChars (d :: ds) with
      | tok :: rest => (c :: tok) :: rest
      | [] => [[c]] := by
  rw [fieldsChars_cons, if_neg (by rw [h]; exact Bool.false_ne_true)]
  show (if isSpace d = true then [c] :: fieldsChars (d :: ds) else _) = _
  rw [if_neg (by rw [hd]; exact Bool.false_ne_true)]

/-- Every field is a non-empty run of characters that are not white space. -/
theorem fieldsChars_tokens (l : List Char) :
    ∀ tok ∈ fieldsChars l, tok ≠ [] ∧ ∀ c ∈ tok, isSpace c = false := by
  induction l with
  | nil => intro tok h; rw [fieldsChars_nil] at h; cases h
  | cons c cs ih =>
    intro tok h
    cases hc : isSpace c with
    | true =>
      rw [fieldsChars_space c cs hc] at h
      exact ih tok h
    | false =>
      cases cs with
      | nil =>
        rw [fieldsChars_last c hc] at h
        rw [List.mem_singleton] at h
        subst h
        refine ⟨List.cons_ne_nil _ _, ?_⟩
        intro x hx
        rw [List.mem_singleton] at hx
        rw [hx]
        exact hc
      | cons d ds =>
        cases hd : isSpace d with
        | true =>
          rw [fieldsChars_end c d ds hc hd] at h
          rcases List.mem_cons.mp h with rfl | h
          · refine ⟨List.cons_ne_nil _ _, ?_⟩
            intro x hx
            rw [List.mem_singleton] at hx
            rw [hx]
            exact hc
          · exact ih tok h
        | false =>
          rw [fieldsChars_grow c d ds hc hd] at h
          cases hf : fieldsChars (d :: ds) with
          | nil =>
            rw [hf] at h
            rw [List.mem_singleton] at h
            subst h
            refine ⟨List.cons_ne_nil _ _, ?_⟩
            intro x hx
            rw [List.mem_singleton] at hx
            rw [hx]
            exact hc
          | cons t ts =>
            rw [hf] at h ih
            rcases List.mem_cons.mp h with rfl | h
            · have ht := ih t (List.mem_cons_self _ _)
              refine ⟨List.cons_ne_nil _ _, ?_⟩
              intro x hx
              rcases List.mem_cons.mp hx with rfl | hx
              · exact hc
              · exact ht.2 x hx
            · exact ih tok (List.mem_cons_of_mem _ h)

/-- The first element left by `dropWhile` does not satisfy the test. -/
theorem head_dropWhile_false {α : Type} (p : α → Bool) (l : List α) (c : α)
    (h : (l.dropWhile p).head? = some c) : p c = false := by
  have h1 := List.head?_dropWhile_not p l
  rw [h] at h1
  exact h1

/-- What `trimSpace` leaves: the string is white space, then the result, then
white space, and the result neither begins nor ends with white space. -/
theorem trimSpace_split (s : String) :
    ∃ lead trail, s.data = lead ++ (trimSpace s).data ++ trail ∧
      (∀ c ∈ lead, isSpace c = true) ∧ (∀ c ∈ trail, isSpace c = true) ∧
      (∀ c, (trimSpace s).data.head? = some c → isSpace c = false) ∧
      (∀ c, (trimSpace s).data.getLast? = some c → isSpace c = false) := by
  have hm : (s.data.dropWhile isSpace) =
      ((s.data.dropWhile isSpace).reverse.dropWhile isSpace).reverse ++
        ((s.data.dropWhile isSpace).reverse.takeWhile isSpace).reverse := by
    rw [← List.reverse_append, List.takeWhile_append_dropWhile, List.reverse_reverse]
  have hcore : (trimSpace s).data =
      ((s.data.dropWhile isSpace).reverse.dropWhile isSpace).reverse := rfl
  refine ⟨s.data.takeWhile isSpace,
    ((s.data.dropWhile isSpace).reverse.takeWhile isSpace).reverse, ?_, ?_, ?_, ?_, ?_⟩
  · rw [hcore, List.append_assoc, ← hm, List.takeWhile_append_dropWhile]
  · intro c hc
    exact List.mem_takeWhile_imp hc
  · intro c hc
    exact List.mem_takeWhile_imp (List.mem_reverse.mp hc)
  · intro c hc
    apply head_dropWhile_false isSpace s.data c
    rw [hm, ← hcore]
    cases hd : (trimSpace s).data with
    | nil => rw [hd] at hc; cases hc
    | cons a l =>
      rw [hd] at hc
      simpa using hc
  · intro c hc
    rw [hcore, List.getLast?_reverse] at hc
    exact head_dropWhile_false isSpace _ c hc

/-- What `splitChars` gives: pieces without the separator which, put together
with the separator between them, are the list split. -/
theorem splitChars_spec (sep : Char) (l : List Char) :
    splitChars sep l ≠ [] ∧ (∀ x ∈ splitChars sep l, sep ∉ x) ∧
      l = List.intercalate [sep] (splitChars sep l) := by
  induction l with
  | nil =>
    refine ⟨by simp [splitChars], ?_, by simp [splitChars, List.intercalate]⟩
    intro x hx
    simp [splitChars] at hx
    subst hx
    simp
  | cons c cs ih =>
    obtain ⟨hne, hno, hj⟩ := ih
    cases hs : splitChars sep cs with
    | nil => exact absurd hs hne
    | cons h t =>
      rw [hs] at hno hj
      by_cases hc : c = sep
      · have e : splitChars sep (c :: cs) = [] :: h :: t := by
          simp [splitChars, hc, hs]
        rw [e]
        refine ⟨by simp, ?_, ?_⟩
        · intro x hx
          rcases List.mem_cons.mp hx with rfl | hx
          · simp
          · exact hno x hx
        · rw [hc]
          have : List.intercalate [sep] ([] :: h :: t) = sep :: List.intercalate [sep] (h :: t) := by
            simp [List.intercalate, List.intersperse]
          rw [this, ← hj]
      · have e : splitChars sep (c :: cs) = (c :: h) :: t := by
          simp [splitChars, hc, hs]
        rw [e]
        refine ⟨by simp, ?_, ?_⟩
        · intro x hx
          rcases List.mem_cons.mp hx with rfl | hx
          · intro hm
            rcases List.mem_cons.mp hm with hm | hm
            · exact hc hm.symm
            · exact hno h (List.mem_cons_self _ _) hm
          · exact hno x (List.mem_cons_of_mem _ hx)
        · have : List.intercalate [sep] ((c :: h) :: t) = c :: List.intercalate [sep] (h :: t) := by
            cases t <;> simp [List.intercalate, List.intersperse]
          rw [this, ← hj]

/-- A list has no field exactly when it is white space only. -/
theorem fieldsChars_eq_nil (l : List Char) :
    fieldsChars l = [] ↔ ∀ c ∈ l, isSpace c = true := by
  induction l with
  | nil => simp [fieldsChars_nil]
  | cons c cs ih =>
    cases hc : isSpace c with
    | true =>
      rw [fieldsChars_space c cs hc, ih]
      constructor
      · intro h x hx
        rcases List.mem_cons.mp hx with rfl | hx
        · exact hc
        · exact h x hx
      · intro h x hx
        exact h x (List.mem_cons_of_mem _ hx)
    | false =>
      constructor
      · intro h
        exfalso
        cases cs with
        | nil => rw [fieldsChars_last c hc] at h; cases h
        | cons d ds =>
          cases hd : isSpace d with
          | true => rw [fieldsChars_end c d ds hc hd] at h; cases h
          | false =>
            rw [fieldsChars_grow c d ds hc hd] at h
            cases hf : fieldsChars (d :: ds) with
            | nil => rw [hf] at h; cases h
            | cons t ts => rw [hf] at h; cases h
      · intro h
        have := h c (List.mem_cons_self _ _)
        rw [hc] at this
        cases this

/-- The first field of a list: the list is white space, then the field, then
nothing or a white space character and the rest. -/
theorem fieldsChars_first (l : List Char) :
    ∀ tok toks, fieldsChars l = tok :: toks →
      ∃ ws rest, l = ws ++ tok ++ rest ∧ (∀ c ∈ ws, isSpace c = true) ∧
        (rest = [] ∨ ∃ c r, rest = c :: r ∧ isSpace c = true) := by
  induction l with
  | nil => intro tok toks h; rw [fieldsChars_nil] at h; cases h
  | cons c cs ih =>
    intro tok toks h
    cases hc : isSpace c with
    | true =>
      rw [fieldsChars_space c cs hc] at h
      obtain ⟨ws, rest, hl, hws, hrest⟩ := ih tok toks h
      refine ⟨c :: ws, rest, by rw [hl]; rfl, ?_, hrest⟩
      intro x hx
      rcases List.mem_cons.mp hx with rfl | hx
      · exact hc
      · exact hws x hx
    | false =>
      cases cs with
      | nil =>
        rw [fieldsChars_last c hc] at h
        cases h
        exact ⟨[], [], rfl, by simp, Or.inl rfl⟩
      | cons d ds =>
        cases hd : isSpace d with
        | true =>
          rw [fieldsChars_end c d ds hc hd] at h
          cases h
          exact ⟨[], d :: ds, rfl, by simp, Or.inr ⟨d, ds, rfl, hd⟩⟩
        | false =>
          rw [fieldsChars_grow c d ds hc hd] at h
          cases hf : fieldsChars (d :: ds) with
          | nil =>
            exfalso
            have := (fieldsChars_eq_nil (d :: ds)).mp hf d (List.mem_cons_self _ _)
            rw [hd] at this
            cases this
          | cons t ts =>
            rw [hf] at h
            cases h
            obtain ⟨ws, rest, hl, hws, hrest⟩ := ih _ _ hf
            cases ws with
            | nil =>
              refine ⟨[], rest, ?_, by simp, hrest⟩
              rw [hl]
              rfl
            | cons w ws1 =>
              exfalso
              have hw : w = d := by
                have := congrArg List.head? hl
                simp at this
                exact this.symm
              have := hws w (List.mem_cons_self _ _)
              rw [hw, hd] at this
              cases this

/-- What `trimSuffix` does with the dot: one trailing dot is dropped, and a
string that does not end with a dot is kept. -/
theorem trimSuffix_dot (tok : String) :
    (∃ t, tok.data = t ++ ['.'] ∧ (trimSuffix tok ".").data = t) ∨
    (tok.data.getLast? ≠ some '.' ∧ trimSuffix tok "." = tok) := by
  have hd : (".": String).data = ['.'] := by decide
  rcases List.eq_nil_or_concat tok.data with hnil | ⟨L, b, hL⟩
  · right
    refine ⟨by rw [hnil]; simp, ?_⟩
    simp [trimSuffix, hasSuffix, hd, hnil]
  · rw [List.concat_eq_append] at hL
    by_cases hb : b = '.'
    · left
      subst hb
      refine ⟨L, hL, ?_⟩
      simp [trimSuffix, hasSuffix, hd, hL]
    · right
      refine ⟨by rw [hL]; simpa using hb, ?_⟩
      simp [trimSuffix, hasSuffix, hd, hL, hb]

/-- The comment test of `getNSECRecord` reads: the first two characters are
semicolons. -/
theorem hasPrefix_semicolons (line : String) :
    hasPrefix line ";;" = true ↔ ∃ rest, line.data = ';' :: ';' :: rest := by
  have hd : (";;" : String).data = [';', ';'] := by decide
  unfold hasPrefix
  rw [hd]
  cases hn : line.data with
  | nil => simp
  | cons a l =>
    cases l with
    | nil => simp
    | cons b m => simp

theorem map_data_mk (ls : List (List Char)) : (ls.map String.mk).map String.data = ls := by
  induction ls with
  | nil => rfl
  | cons a l ih => simp [ih]

/-- A line that is a comment or has no field, on its characters. -/
theorem skipped_line (l : String) (h : hasPrefix l ";;" = true ∨ fields l = []) :
    (∃ r, l.data = ';' :: ';' :: r) ∨ ∀ c ∈ l.data, isSpace c = true := by
  rcases h with h | h
  · exact Or.inl ((hasPrefix_semicolons l).mp h)
  · right
    apply (fieldsChars_eq_nil l.data).mp
    unfold fields at h
    exact List.map_eq_nil_iff.mp h

/-- C9: for the output `out` of a successful NSEC query, `getNSECRecord`
returns what the specification says (`nsecRecordSpec`).  In full: `out` is
white space, a core that neither begins nor ends with white space, and white
space; the core is cut at its line feeds into lines; every line that starts
with `;;` or is white space only is passed over; the first other line is
white space, a first token (a non-empty run of characters that are not white
space, ended by white space or by the end of the line) and a rest that is
dropped, as are all later lines; the result is that token without one
trailing dot.  Without such a line the result is the empty string. -/
theorem getNSECRecord_eq_spec (dig : String → String → Option String)
    (nsIP currentDomain out : String) (hout : dig nsIP currentDomain = some out) :
    getNSECRecord dig nsIP currentDomain = nsecRecordSpec out ∧
    ∃ (lead core trail : List Char) (lines : List (List Char)),
      out.data = lead ++ core ++ trail ∧
      (∀ c ∈ lead, isSpace c = true) ∧ (∀ c ∈ trail, isSpace c = true) ∧
      (∀ c, core.head? = some c → isSpace c = false) ∧
      (∀ c, core.getLast? = some c → isSpace c = false) ∧
      lines ≠ [] ∧ (∀ l ∈ lines, '\n' ∉ l) ∧ core = List.intercalate ['\n'] lines ∧
      (((∀ l ∈ lines, (∃ r, l = ';' :: ';' :: r) ∨ ∀ c ∈ l, isSpace c = true) ∧
          getNSECRecord dig nsIP currentDomain = "") ∨
        ∃ (pre : List (List Char)) (line : List Char) (post : List (List Char))
          (ws tok rest : List Char),
          lines = pre ++ line :: post ∧
          (∀ l ∈ pre, (∃ r, l = ';' :: ';' :: r) ∨ ∀ c ∈ l, isSpace c = true) ∧
          (¬ ∃ r, line = ';' :: ';' :: r) ∧
          line = ws ++ tok ++ rest ∧ (∀ c ∈ ws, isSpace c = true) ∧
          tok ≠ [] ∧ (∀ c ∈ tok, isSpace c = false) ∧
          (rest = [] ∨ ∃ c r, rest = c :: r ∧ isSpace c = true) ∧
          ((∃ t, tok = t ++ ['.'] ∧ (getNSECRecord dig nsIP currentDomain).data = t) ∨
            (tok.getLast? ≠ some '.' ∧
              (getNSECRecord dig nsIP currentDomain).data = tok))) := by
  have hg : getNSECRecord dig nsIP currentDomain = nsecScan (splitLines (trimSpace out)) := by
    simp [getNSECRecord, hout]
  rw [hg]
  refine ⟨nsecScan_eq_find _, ?_⟩
  obtain ⟨lead, trail, hsplit, hlead, htrail, hhead, hlast⟩ := trimSpace_split out
  obtain ⟨hne, hnl, hjoin⟩ := splitChars_spec '\n' (trimSpace out).data
  have hmap : (splitLines (trimSpace out)).map String.data =
      splitChars '\n' (trimSpace out).data := by
    unfold splitLines
    exact map_data_mk _
  refine ⟨lead, (trimSpace out).data, trail, splitChars '\n' (trimSpace out).data,
    hsplit, hlead, htrail, hhead, hlast, hne, hnl, hjoin, ?_⟩
  rcases nsecScan_split (splitLines (trimSpace out)) with
    ⟨hall, hr⟩ | ⟨pre, line, post, tok, toks, hl, hpre, hln, hf, hr⟩
  · left
    refine ⟨?_, hr⟩
    intro l hl
    rw [← hmap] at hl
    obtain ⟨ls, hls, rfl⟩ := List.mem_map.mp hl
    exact skipped_line ls (hall ls hls)
  · right
    have hfc : ∃ tcs, fieldsChars line.data = tok.data :: tcs := by
      unfold fields at hf
      cases hfd : fieldsChars line.data with
      | nil => rw [hfd] at hf; cases hf
      | cons tc tcs =>
        rw [hfd] at hf
        simp only [List.map_cons] at hf
        have h1 := (List.cons.inj hf).1
        exact ⟨tcs, by rw [← h1]⟩
    obtain ⟨tcs, hfc⟩ := hfc
    obtain ⟨ws, rest, hline, hws, hrest⟩ := fieldsChars_first line.data tok.data tcs hfc
    obtain ⟨ht1, ht2⟩ :=
      fieldsChars_tokens line.data tok.data (by rw [hfc]; exact List.mem_cons_self _ _)
    refine ⟨pre.map String.data, line.data, post.map String.data, ws, tok.data, rest,
      ?_, ?_, ?_, hline, hws, ht1, ht2, hrest, ?_⟩
    · rw [← hmap, hl]
      simp
    · intro l hlm
      obtain ⟨ls, hls, rfl⟩ := List.mem_map.mp hlm
      exact skipped_line ls (hpre ls hls)
    · intro hex
      have := (hasPrefix_semicolons line).mpr hex
      rw [hln] at this
      cases this
    · rw [hr]
      rcases trimSuffix_dot tok with ⟨t, ht, hres⟩ | ⟨hnd, hres⟩
      · exact Or.inl ⟨t, ht, hres⟩
      · exact Or.inr ⟨hnd, by rw [hres]⟩

/-- An answer of `dig +short` with white space and a comment line before
the record, and tabs and carriage returns as separators. -/
theorem getNSECRecord_eq_spec_witness :
    getNSECRecord (fun _ _ => some " \t;; communications error\r\nb.example.test.\tA RRSIG\r\n")
        "10.0.0.1" "example.test" =
      nsecRecordSpec " \t;; communications error\r\nb.example.test.\tA RRSIG\r\n" ∧
    nsecRecordSpec " \t;; communications error\r\nb.example.test.\tA RRSIG\r\n" =
      "b.example.test" ∧
    trimSpace " \t;; communications error\r\nb.example.test.\tA RRSIG\r\n" =
      ";; communications error\r\nb.example.test.\tA RRSIG" :=
  ⟨(getNSECRecord_eq_spec
      (fun _ _ => some " \t;; communications error\r\nb.example.test.\tA RRSIG\r\n")
      "10.0.0.1" "example.test" " \t;; communications error\r\nb.example.test.\tA RRSIG\r\n"
      rfl).1,
    by decide, by decide⟩

/-! ## `cleanDomain` -/

theorem findIdx_take_none {α : Type} (p : α → Bool) (l : List α) :
    match l.findIdx? p with
    | some i => ∀ x ∈ l.take i, p x = false
    | none => ∀ x ∈ l, p x = false := by
  induction l with
  | nil => simp
  | cons a l ih =>
    rw [List.findIdx?_cons]
    cases hp : p a with
    | true => simp
    | false =>
      simp only [Bool.false_eq_true, if_false]
      rw [List.findIdx?_succ]
      cases hf : List.findIdx? p l with
      | none =>
        rw [hf] at ih
        show ∀ x ∈ a :: l, p x = false
        intro x hx
        rcases List.mem_cons.mp hx with rfl | hx
        · exact hp
        · exact ih x hx
      | some i =>
        rw [hf] at ih
        show ∀ x ∈ a :: List.take i l, p x = false
        intro x hx
        rcases List.mem_cons.mp hx with rfl | hx
        · exact hp
        · exact ih x hx

/-- The result of `cleanDomain` has no `/`, hence neither a path nor one of
the scheme prefixes `http://` and `https://`. -/
theorem cleanDomain_no_slash (domain : String) :
    '/' ∉ (cleanDomain domain).data ∧
    hasPrefix (cleanDomain domain) "http://" = false ∧
    hasPrefix (cleanDomain domain) "https://" = false := by
  have key : ∀ s : String,
      '/' ∉ (match indexChar s '/' with
        | some idx => (⟨s.data.take idx⟩ : String)
        | none => s).data := by
    intro s
    have h := findIdx_take_none (fun d => d == '/') s.data
    unfold indexChar
    cases hf : List.findIdx? (fun d => d == '/') s.data with
    | none =>
      rw [hf] at h
      intro hm
      have := h '/' hm
      simp at this
    | some i =>
      rw [hf] at h
      intro hm
      have := h '/' hm
      simp at this
  have h1 : '/' ∉ (cleanDomain domain).data := key _
  have pre : ∀ p : String, '/' ∈ p.data → hasPrefix (cleanDomain domain) p = false := by
    intro p hp
    cases hh : hasPrefix (cleanDomain domain) p with
    | false => rfl
    | true =>
      exfalso
      unfold hasPrefix at hh
      simp only [Bool.and_eq_true, decide_eq_true_eq, beq_iff_eq] at hh
      apply h1
      have h2 : '/' ∈ List.take p.data.length (cleanDomain domain).data := by
        rw [hh.2]; exact hp
      exact List.mem_of_mem_take h2
  exact ⟨h1, pre "http://" (by decide), pre "https://" (by decide)⟩

/-! ## A start domain with a trailing dot -/

/-- A walk in which every answer is a name satisfying `P`, different from
the start domain and from the name queried, never ends. -/
theorem runLoop_never_ends (w : World) (d : String) (P : String → Prop)
    (hP : ∀ t ip name, P name →
      getNSECRecord (w.digNSEC t) ip name ≠ "" ∧
      getNSECRecord (w.digNSEC t) ip name ≠ d ∧
      getNSECRecord (w.digNSEC t) ip name ≠ name ∧
      hasPrefix (getNSECRecord (w.digNSEC t) ip name) "\x00." = false ∧
      P (getNSECRecord (w.digNSEC t) ip name))
    (fuel : Nat) :
    ∀ (t : Nat) (s : WalkState), WalkInv s → s.domain = d → P s.currentDomain →
      (runLoop w fuel t s).outcome = none := by
  induction fuel with
  | zero => intro t s _ _ _; rfl
  | succ fuel ih =>
    intro t s h hd hc
    obtain ⟨h0, h1, h2, h3, h4⟩ := hP t s.ns.2 s.currentDomain hc
    have hstep := loopBody_answer_go (w.digNSEC t) (w.rand (t + 1)) (w.fileOp t) s
      (headCheck_of_inv s h) h0 (by rw [hd]; exact h1) h2 h3
    rw [runLoop_next w fuel t s _ hstep]
    exact ih (t + 1) _ (loopBody_next_inv _ _ _ s _ h hstep) hd h4

theorem fqdnWorld_answers (t : Nat) (ip name : String)
    (h : name = "example.test." ∨ name = "b.example.test" ∨ name = "example.test") :
    getNSECRecord (fqdnWorld.digNSEC t) ip name ≠ "" ∧
    getNSECRecord (fqdnWorld.digNSEC t) ip name ≠ "example.test." ∧
    getNSECRecord (fqdnWorld.digNSEC t) ip name ≠ name ∧
    hasPrefix (getNSECRecord (fqdnWorld.digNSEC t) ip name) "\x00." = false ∧
    (getNSECRecord (fqdnWorld.digNSEC t) ip name = "example.test." ∨
      getNSECRecord (fqdnWorld.digNSEC t) ip name = "b.example.test" ∨
      getNSECRecord (fqdnWorld.digNSEC t) ip name = "example.test") := by
  have e1 : getNSECRecord (fqdnWorld.digNSEC t) ip "example.test." = "b.example.test" := by
    have h : getNSECRecord fqdnDig "" "example.test." = "b.example.test" := by decide
    exact h
  have e2 : getNSECRecord (fqdnWorld.digNSEC t) ip "b.example.test" = "example.test" := by
    have h : getNSECRecord fqdnDig "" "b.example.test" = "example.test" := by decide
    exact h
  have e3 : getNSECRecord (fqdnWorld.digNSEC t) ip "example.test" = "b.example.test" := by
    have h : getNSECRecord fqdnDig "" "example.test" = "b.example.test" := by decide
    exact h
  rcases h with rfl | rfl | rfl
  · rw [e1]; decide
  · rw [e2]; decide
  · rw [e3]; decide

theorem nsecCrawl_dot (fuel : Nat) :
    nsecCrawl fqdnNS zoneA fqdnWorld fuel "example.test." =
      .walked (runLoop fqdnWorld fuel 0 dotStart) := by
  have h1 : cleanDomain "example.test." = "example.test." := by decide
  have h2 : getNameservers fqdnNS "example.test." = ["ns1.example.test"] := by decide
  have h3 : getNameserverIPs zoneA ["ns1.example.test"] "example.test." = zonePool := by
    decide
  have h4 : walkInit 0 "example.test." ["ns1.example.test"] zonePool = some dotStart := by
    decide
  have h5 : zonePool.length ≠ 0 := by decide
  have hr : fqdnWorld.rand 0 = 0 := rfl
  simp only [nsecCrawl, h1, h2, h3, hr, h4, List.length_singleton, one_ne_zero, if_false, h5]

/-- C8 fails on the code: `cleanDomain` keeps the trailing dot of its input,
and the walk of `example.test.` then never finds the start domain among the
answers, which `getNSECRecord` returns without the dot: it is still running
after any number of iterations. -/
theorem cleanDomain_keeps_trailing_dot :
    cleanDomain "example.test." = "example.test." ∧
    hasSuffix (cleanDomain "example.test.") "." = true ∧
    ∀ fuel : Nat,
      nsecCrawl fqdnNS zoneA fqdnWorld fuel "example.test." =
        .walked (runLoop fqdnWorld fuel 0 dotStart) ∧
      (runLoop fqdnWorld fuel 0 dotStart).outcome = none :=
  ⟨by decide, by decide, fun fuel =>
    ⟨nsecCrawl_dot fuel,
      runLoop_never_ends fqdnWorld "example.test."
        (fun name => name = "example.test." ∨ name = "b.example.test" ∨ name = "example.test")
        fqdnWorld_answers fuel 0 dotStart
        ⟨by decide, by decide, by decide, by decide⟩ rfl (Or.inl rfl)⟩⟩

end Ncrack
